import Mathlib

/-!
Verification of the `blanat` submission `src/submissions/dauom/main.cpp`
(parallel CSV aggregation: per-city price sums, per-(city,product) price
minimums, chunked parsing, merge of per-worker partial aggregates, report).

The C++ code is shallowly embedded:
* prices are `Int` counts of hundredths (the code uses `long long`);
* the `gp_hash_table<string,int>` dictionaries, which assign dense ids
  `0,1,2,...` in first-insertion order and are iterated as (key, id) pairs,
  are embedded as `List String` (the id of a key is its list index);
* the fixed-size arrays `city_cost` / `product_cost` are embedded as total
  functions from indices, initialised to `0` / the sentinel `(long long)4e18`
  (the hard-coded capacity `NUM_CITIES = 102`, beyond which the C++ writes
  out of bounds, is idealised away: the embedding covers the runs that stay
  within capacity);
* the byte-level field decoders and the chunk loop are embedded over
  `List Char` cursors.
-/

/-- `(long long)4e18`, the "no observation yet" sentinel of `product_cost`
and the initial `min_city_cost` of `ans`. -/
def SENTINEL : Int := 4000000000000000000

/-- One parsed `(city, product, price)` record; the price is in hundredths. -/
structure Rec where
  city : String
  product : String
  price : Int
deriving DecidableEq

/-- One worker's partial aggregate (the C++ `Result`): two interning
dictionaries plus the cost arrays, embedded as total functions. -/
structure Result where
  city_id : List String
  product_id : List String
  city_cost : Nat → Int
  product_cost : Nat → Nat → Int

/-- The freshly constructed C++ `Result`: empty dictionaries, `city_cost`
filled with `0`, `product_cost` filled with `(long long)4e18`. -/
def emptyResult : Result :=
  { city_id := []
    product_id := []
    city_cost := fun _ => 0
    product_cost := fun _ _ => SENTINEL }

/-- Index of the first occurrence of `k` in the dictionary list (the id the
hash table stores for `k`), `none` if absent. -/
def dictFind : List String → String → Option Nat
  | [], _ => none
  | x :: xs, k => if k = x then some 0 else (dictFind xs k).map (· + 1)

/-- `find_or_create` of the C++ code: return the existing id, or assign
`id = id_map.size()` and insert (C++17 sequences the `size()` read before
the inserting `operator[]`). -/
def find_or_create (d : List String) (k : String) : Nat × List String :=
  match dictFind d k with
  | some i => (i, d)
  | none => (d.length, d ++ [k])

/-- Point update of a one-dimensional cost array. -/
def upd1 (f : Nat → Int) (i : Nat) (v : Int) : Nat → Int :=
  fun x => if x = i then v else f x

/-- Point update of a two-dimensional cost array. -/
def upd2 (f : Nat → Nat → Int) (i j : Nat) (v : Int) : Nat → Nat → Int :=
  fun x y => if x = i ∧ y = j then v else f x y

/-- The body of the `while (cur < end)` loop of `process_chunk`, acting on
one already-decoded record: intern city and product, take the min into
`product_cost`, add into `city_cost`. -/
def step (r : Result) (x : Rec) : Result :=
  { city_id := (find_or_create r.city_id x.city).2
    product_id := (find_or_create r.product_id x.product).2
    city_cost := upd1 r.city_cost (find_or_create r.city_id x.city).1
      (r.city_cost (find_or_create r.city_id x.city).1 + x.price)
    product_cost := upd2 r.product_cost (find_or_create r.city_id x.city).1
      (find_or_create r.product_id x.product).1
      (min (r.product_cost (find_or_create r.city_id x.city).1
        (find_or_create r.product_id x.product).1) x.price) }

/-- `process_chunk` at the record level: fold the loop body over the records
of the chunk, starting from a fresh `Result`. -/
def process_chunk (recs : List Rec) : Result :=
  recs.foldl step emptyResult

/-- A dictionary paired with the ids it assigned: the (id, key) pairs in
iteration order, starting at id `n`. -/
def enumPairs (n : Nat) : List String → List (Nat × String)
  | [] => []
  | x :: xs => (n, x) :: enumPairs (n + 1) xs

/-- One iteration of the inner product loop of the C++ `merge`, for the
(product, local id) pair `q` of the source worker, min-merging into global
city row `ncid` (`pc` is the source row, indexed by local product id):
intern the product globally and min-merge the cell. -/
def prodStep1 (pc : Nat → Int) (ncid : Nat) (q : Nat × String) (acc : Result) : Result :=
  { acc with
    product_id := (find_or_create acc.product_id q.2).2
    product_cost := upd2 acc.product_cost ncid (find_or_create acc.product_id q.2).1
      (min (acc.product_cost ncid (find_or_create acc.product_id q.2).1) (pc q.1)) }

/-- Inner loop of the C++ `merge`: fold `prodStep1` over the source worker's
(product, local id) pairs. -/
def mergeProdsAux (pc : Nat → Int) (ncid : Nat) :
    List (Nat × String) → Result → Result
  | [], acc => acc
  | q :: rest, acc => mergeProdsAux pc ncid rest (prodStep1 pc ncid q acc)

/-- The city part of one iteration of the outer loop of the C++ `merge`, for
the (city, local id) pair `q` of the source worker `r`: intern the city
globally and add the worker's per-city sum. -/
def cityStep1 (r : Result) (q : Nat × String) (acc : Result) : Result :=
  { acc with
    city_id := (find_or_create acc.city_id q.2).2
    city_cost := upd1 acc.city_cost (find_or_create acc.city_id q.2).1
      (acc.city_cost (find_or_create acc.city_id q.2).1 + r.city_cost q.1) }

/-- Outer loop of the C++ `merge`: for every (city, local id) pair of the
source worker `r`, intern the city globally, add the worker's city sum, then
run the product loop over all of `r`'s products. -/
def mergeCitiesAux (r : Result) : List (Nat × String) → Result → Result
  | [], acc => acc
  | q :: rest, acc =>
    mergeCitiesAux r rest
      (mergeProdsAux (fun j => r.product_cost q.1 j)
        (find_or_create acc.city_id q.2).1
        (enumPairs 0 r.product_id) (cityStep1 r q acc))

/-- Merge one worker `Result` into the accumulating global `Result`
(one iteration of the outer `for (auto &r : results)` of `merge`). -/
def mergeOne (acc r : Result) : Result :=
  mergeCitiesAux r (enumPairs 0 r.city_id) acc

/-- The C++ `merge`: fold every worker result into a fresh global `Result`. -/
def mergeAll (rs : List Result) : Result :=
  rs.foldl mergeOne emptyResult

/-- The total cost an aggregate records for city `c` (0 when `c` was never
interned), i.e. `city_cost[city_id[c]]`. -/
def cityTotalOf (r : Result) (c : String) : Int :=
  match dictFind r.city_id c with
  | some i => r.city_cost i
  | none => 0

/-- The product-cost cell of city index `i` and product name `p`
(sentinel when `p` was never interned). -/
def pcell (r : Result) (i : Nat) (p : String) : Int :=
  match dictFind r.product_id p with
  | some j => r.product_cost i j
  | none => SENTINEL

/-- The minimum an aggregate records for the pair `(c, p)`
(sentinel when either name was never interned). -/
def pairMinOf (r : Result) (c p : String) : Int :=
  match dictFind r.city_id c with
  | some i => pcell r i p
  | none => SENTINEL

/-- Specification-side value: the sum of the price field over every record
naming city `c`. -/
def citySum (recs : List Rec) (c : String) : Int :=
  ((recs.filter (fun x => x.city = c)).map Rec.price).sum

/-- Specification-side value: the minimum price over every record with city
`c` and product `p` (sentinel when there is none). -/
def pairMin (recs : List Rec) (c p : String) : Int :=
  ((recs.filter (fun x => x.city = c ∧ x.product = p)).map Rec.price).foldr min SENTINEL

/-- Intern a whole list of keys, in order, into a dictionary. -/
def internAll (d : List String) (ks : List String) : List String :=
  ks.foldl (fun acc k => (find_or_create acc k).2) d

/-! ## The report builder (`ans`) -/

/-- Strict lexicographic order on `(cost, name)` keys: the condition under
which `ans`'s selection loop replaces the current best city. -/
def keyLt (a b : Int × String) : Prop :=
  a.1 < b.1 ∨ (a.1 = b.1 ∧ a.2 < b.2)

instance : DecidableRel keyLt := fun a b => by
  unfold keyLt; infer_instance

/-- Reflexive lexicographic order on `(cost, name)` keys, the order in which
`sort` on `pair<long long, string>` arranges the product lines. -/
def pairLe (a b : Int × String) : Prop :=
  a.1 < b.1 ∨ (a.1 = b.1 ∧ a.2 ≤ b.2)

instance : DecidableRel pairLe := fun a b => by
  unfold pairLe; infer_instance

instance : IsTotal (Int × String) pairLe where
  total a b := by
    rcases lt_trichotomy a.1 b.1 with h | h | h
    · exact Or.inl (Or.inl h)
    · rcases le_total a.2 b.2 with hs | hs
      · exact Or.inl (Or.inr ⟨h, hs⟩)
      · exact Or.inr (Or.inr ⟨h.symm, hs⟩)
    · exact Or.inr (Or.inl h)

instance : IsTrans (Int × String) pairLe where
  trans a b c h1 h2 := by
    rcases h1 with h1 | ⟨h1e, h1s⟩
    · rcases h2 with h2 | ⟨h2e, _⟩
      · exact Or.inl (lt_trans h1 h2)
      · exact Or.inl (h2e ▸ h1)
    · rcases h2 with h2 | ⟨h2e, h2s⟩
      · exact Or.inl (h1e ▸ h2)
      · exact Or.inr ⟨h1e.trans h2e, le_trans h1s h2s⟩

instance : IsAntisymm (Int × String) pairLe where
  antisymm a b h1 h2 := by
    rcases h1 with h1 | ⟨h1e, h1s⟩
    · rcases h2 with h2 | ⟨h2e, _⟩
      · exact absurd h2 (lt_asymm h1)
      · exact absurd h1 (h2e ▸ lt_irrefl _)
    · rcases h2 with h2 | ⟨_, h2s⟩
      · exact absurd h2 (h1e ▸ lt_irrefl _)
      · exact Prod.ext_iff.mpr ⟨h1e, le_antisymm h1s h2s⟩

/-- One iteration of `ans`'s city-selection loop, on a candidate triple
`(cost, name, id)`: replace the best when the candidate's cost is strictly
smaller, or equal with a lexicographically smaller name. -/
def selStep (best cand : Int × String × Nat) : Int × String × Nat :=
  if keyLt (cand.1, cand.2.1) (best.1, best.2.1) then cand else best

/-- `ans`'s city-selection loop: scan the per-city sums, starting from
`min_city_cost = (long long)4e18`, `city = ""` (the unused initial id `-1`
is embedded as `0`; it is only read when some city exists, and is then
overwritten). Returns `(min_city_cost, city, city_id)`. -/
def selectCity (r : Result) : Int × String × Nat :=
  ((enumPairs 0 r.city_id).map (fun q => (r.city_cost q.1, q.2, q.1))).foldl
    selStep (SENTINEL, "", 0)

/-- The report of `ans`, as data: the `(city, total)` head line, then the
product lines as `(price, name)` pairs. The product vector collects a line
for every product of the *global* dictionary with the cell
`product_cost[city_id][pid]`, sorts it by `(price, name)`, and `resize(5)`
truncates to five entries or pads with default-constructed `(0, "")` pairs. -/
def reportOf (r : Result) : (String × Int) × List (Int × String) :=
  let sel := selectCity r
  let prods := (enumPairs 0 r.product_id).map
    (fun q => (r.product_cost sel.2.2 q.1, q.2))
  let sorted := prods.insertionSort pairLe
  ((sel.2.1, sel.1), sorted.take 5 ++ List.replicate (5 - sorted.length) (0, ""))

/-! ## Byte-level field decoders (`consume_str`, `consume_float_as_long`) -/

/-- The digit-accumulation loop `while ((c = *start) <= '9' && c >= '0')`:
returns the accumulated value, the terminating character `c` (a NUL stands
for running off the end of the embedded byte list), and the rest of the
cursor starting at that terminating character. -/
def readInt : List Char → Int → Int × Char × List Char
  | [], acc => (acc, Char.ofNat 0, [])
  | ch :: rest, acc =>
    if '0' ≤ ch ∧ ch ≤ '9' then readInt rest (acc * 10 + ((ch.toNat : Int) - 48))
    else (acc, ch, ch :: rest)

/-- The fractional-digit loop of `consume_float_as_long`: also counts the
digits consumed. -/
def readFrac : List Char → Int → Nat → Int × Nat × List Char
  | [], acc, n => (acc, n, [])
  | ch :: rest, acc, n =>
    if '0' ≤ ch ∧ ch ≤ '9' then readFrac rest (acc * 10 + ((ch.toNat : Int) - 48)) (n + 1)
    else (acc, n, ch :: rest)

/-- `consume_float_as_long`: integral digits, one unconditional skip (dot or
line terminator); when the skipped character was `'.'`, fractional digits,
a `*10` promotion when exactly one fractional digit was read, one skip of
the terminator (`'\n'` or `'\r'`), and one further skip when the following
byte is `'\n'`. Returns the price in hundredths and the advanced cursor. -/
def consume_float_as_long (s : List Char) : Int × List Char :=
  match readInt s 0 with
  | (a, c, s0) =>
    let s1 := s0.drop 1
    if c = '.' then
      match readFrac s1 a 0 with
      | (a2, n, t0) =>
        let v := if n = 1 then a2 * 10 else a2
        let s2 := t0.drop 1
        let s3 := if s2.head? = some '\n' then s2.drop 1 else s2
        (v, s3)
    else (a, s1)

/-- `consume_str`: copy bytes until a NUL, `','` or `'\n'`, then skip the
delimiter. Returns the token and the advanced cursor. -/
def consume_str (s : List Char) : String × List Char :=
  let tok := s.takeWhile (fun ch => ch ≠ Char.ofNat 0 ∧ ch ≠ ',' ∧ ch ≠ '\n')
  (String.mk tok, (s.drop tok.length).drop 1)

/-! ## Chunking and the byte-level chunk loop -/

/-- The fixed chunk size `block_size = 1024 * 1024 * 100`. -/
def BLOCK : Nat := 104857600

/-- The chunk list built by `process_concurrently` for an input of `L`
bytes: `chunks_count = L / block_size` (integer division) ranges `[i*B,
(i+1)*B)`, the last end clamped to `L`; the loop breaks on an empty range. -/
def chunksOf (L : Nat) : List (Nat × Nat) :=
  ((List.range (L / BLOCK)).map
    (fun i => (i * BLOCK, if i + 1 = L / BLOCK then L else (i + 1) * BLOCK))).takeWhile
    (fun c => c.1 < c.2)

/-- Start realignment of `process_chunk`: if the byte at the nominal start
is not `'\n'`, scan forward (`rawmemchr`) to the next `'\n'`; in both cases
advance one byte past it. When no `'\n'` follows (the C++ scan would leave
the chunk) the model yields the input length, parsing nothing. -/
def realignStart (bytes : List Char) (a : Nat) : Nat :=
  if bytes.get? a = some '\n' then a + 1
  else
    match (bytes.drop a).findIdx? (fun ch => ch = '\n') with
    | some k => a + k + 1
    | none => bytes.length

/-- The record loop of `process_chunk`: while the cursor position is before
the chunk end (cursor suffix longer than `stop`, the distance from the
chunk end to the input end), decode `city`, `product`, `price` and collect
the record. The fuel argument only bounds the recursion; it is one more
than the cursor length at entry, which each iteration strictly shrinks. -/
def parseLoop : Nat → List Char → Nat → List Rec
  | 0, _, _ => []
  | fuel + 1, s, stop =>
    if s.length ≤ stop then []
    else
      let c1 := consume_str s
      let c2 := consume_str c1.2
      let c3 := consume_float_as_long c2.2
      ⟨c1.1, c2.1, c3.1⟩ :: parseLoop fuel c3.2 stop

/-- `process_chunk` at the byte level, returning the records it decodes:
realign the start, then run the record loop up to the nominal chunk end. -/
def process_chunk_bytes (bytes : List Char) (c : Nat × Nat) : List Rec :=
  let st := realignStart bytes c.1
  let s := bytes.drop st
  parseLoop (s.length + 1) s (bytes.length - c.2)

/-- The whole program on an input byte list: chunk, decode every chunk,
aggregate each chunk's records, merge, and build the report. -/
def runPipeline (bytes : List Char) : (String × Int) × List (Int × String) :=
  reportOf (mergeAll
    (((chunksOf bytes.length).map (process_chunk_bytes bytes)).map process_chunk))

/-- `Models recs r` couples an aggregate `Result` with the multiset of records
it accounts for: the dictionaries hold exactly the observed names (without
duplicates), the observable per-city total and per-pair minimum agree with
the spec-side `citySum` / `pairMin`, and every cell outside the
dictionaries' ranges still holds its initial value. -/
structure Models (recs : List Rec) (r : Result) : Prop where
  cnd : r.city_id.Nodup
  pnd : r.product_id.Nodup
  cmem : ∀ x ∈ recs, x.city ∈ r.city_id
  pmem : ∀ x ∈ recs, x.product ∈ r.product_id
  csub : ∀ c ∈ r.city_id, ∃ x ∈ recs, x.city = c
  psub : ∀ p ∈ r.product_id, ∃ x ∈ recs, x.product = p
  csum : ∀ c, cityTotalOf r c = citySum recs c
  pmin : ∀ c p, pairMinOf r c p = pairMin recs c p
  czero : ∀ i, r.city_id.length ≤ i → r.city_cost i = 0
  psent : ∀ i j, r.city_id.length ≤ i ∨ r.product_id.length ≤ j →
    r.product_cost i j = SENTINEL

/-- What one inner product loop does to the accumulating global result:
city side untouched, products interned, only row `ncid` touched, and the
cell of row `ncid` for product `p` min-merged with the source row's entry
for `p` (when the source pair list carries `p`). -/
structure ProdStep (pc : Nat → Int) (ncid : Nat) (L : List (Nat × String))
    (acc res : Result) : Prop where
  cid : res.city_id = acc.city_id
  ccost : res.city_cost = acc.city_cost
  pdict : res.product_id = internAll acc.product_id (L.map Prod.snd)
  rows : ∀ x y, x ≠ ncid → res.product_cost x y = acc.product_cost x y
  cell : ∀ p, pcell res ncid p =
    match L.find? (fun s => s.2 == p) with
    | some s => min (pcell acc ncid p) (pc s.1)
    | none => pcell acc ncid p
  sent : ∀ i j, res.city_id.length ≤ i ∨ res.product_id.length ≤ j →
    res.product_cost i j = SENTINEL

/-- Standing well-formedness of the accumulating global aggregate during the
merge: dictionaries duplicate-free, out-of-range cells at their initial
values, and every recorded pair minimum bounded by the sentinel. -/
structure Accum (acc : Result) : Prop where
  cnd : acc.city_id.Nodup
  pnd : acc.product_id.Nodup
  czero : ∀ i, acc.city_id.length ≤ i → acc.city_cost i = 0
  psent : ∀ i j, acc.city_id.length ≤ i ∨ acc.product_id.length ≤ j →
    acc.product_cost i j = SENTINEL
  ples : ∀ c p, pairMinOf acc c p ≤ SENTINEL

/-- What merging the cities `names` of source worker `r` into `acc` does:
cities interned, products extended by source products only, every source
product interned as soon as one city is processed, well-formedness kept, and
the observable sums/minimums updated exactly for the cities of `names`. -/
structure MergeStep (r acc res : Result) (names : List String) : Prop where
  cdict : res.city_id = internAll acc.city_id names
  pext : ∃ t, res.product_id = acc.product_id ++ t ∧ ∀ p ∈ t, p ∈ r.product_id
  pfull : names ≠ [] → ∀ p ∈ r.product_id, p ∈ res.product_id
  hacc : Accum res
  csum : ∀ c, cityTotalOf res c
    = cityTotalOf acc c + (if c ∈ names then cityTotalOf r c else 0)
  pmin : ∀ c p, pairMinOf res c p
    = if c ∈ names then min (pairMinOf acc c p) (pairMinOf r c p)
      else pairMinOf acc c p

/-! ## Concrete inputs from the specification's scenarios -/

/-- The four records of the specification's round-trip scenario, decoded
(prices in hundredths). -/
def roundTripRecords : List Rec :=
  [⟨"A", "X", 150⟩, ⟨"A", "Y", 200⟩, ⟨"B", "X", 100⟩, ⟨"B", "X", 50⟩]

/-- The 55-byte round-trip input file of the specification. -/
def roundTripBytes : List Char :=
  "city,product,price\nA,X,1.50\nA,Y,2.00\nB,X,1.00\nB,X,0.50\n".toList

/-- A 19-byte input consisting of only the header line. -/
def headerBytes : List Char := "city,product,price\n".toList

/-- An 18-byte input whose second data record starts exactly at byte 10. -/
def straddleBytes : List Char := "h\nA,X,1.0\nB,Y,2.0\n".toList

/-- The aggregate of two equal-total cities, exercising the tie-break. -/
def tieResult : Result :=
  mergeAll [process_chunk [⟨"B", "X", 100⟩, ⟨"A", "Y", 100⟩]]

/-- Two chunkings of the same two-record stream. -/
def permP : List (List Rec) := [[⟨"A", "X", 100⟩, ⟨"B", "Y", 50⟩]]

/-- The same records as `permP`, re-chunked and re-ordered. -/
def permQ : List (List Rec) := [[⟨"B", "Y", 50⟩], [⟨"A", "X", 100⟩]]

/-! ## Dictionary lemmas -/

theorem dictFind_eq_none {d : List String} {k : String} :
    dictFind d k = none ↔ k ∉ d := by
  induction d with
  | nil => simp [dictFind]
  | cons x xs ih =>
    simp only [dictFind, List.mem_cons]
    by_cases h : k = x
    · simp [h]
    · simp [h, ih]

theorem dictFind_get? :
    ∀ {d : List String} {k : String} {i : Nat}, dictFind d k = some i → d.get? i = some k := by
  intro d
  induction d with
  | nil => intro k i h; simp [dictFind] at h
  | cons x xs ih =>
    intro k i h
    by_cases hk : k = x
    · simp [dictFind, hk] at h
      subst hk
      simp [← h]
    · simp [dictFind, hk] at h
      obtain ⟨j, hj, hji⟩ := h
      subst hji
      simpa using ih hj

theorem dictFind_lt {d : List String} {k : String} {i : Nat}
    (h : dictFind d k = some i) : i < d.length := by
  have := dictFind_get? h
  exact (List.get?_eq_some.mp this).1

theorem dictFind_inj {d : List String} {k k' : String} {i : Nat}
    (h : dictFind d k = some i) (h' : dictFind d k' = some i) : k = k' := by
  have a := dictFind_get? h
  have b := dictFind_get? h'
  rw [a] at b
  exact (Option.some_inj.mp b)

theorem dictFind_append_left {d t : List String} {k : String} {i : Nat}
    (h : dictFind d k = some i) : dictFind (d ++ t) k = some i := by
  induction d generalizing i with
  | nil => simp [dictFind] at h
  | cons x xs ih =>
    by_cases hk : k = x
    · simp [dictFind, hk] at h ⊢
      exact h
    · simp [dictFind, hk] at h ⊢
      obtain ⟨j, hj, hji⟩ := h
      exact ⟨j, ih hj, hji⟩

theorem dictFind_append_of_not_mem {d : List String} {k : String} (h : k ∉ d)
    (t : List String) : dictFind (d ++ t) k = (dictFind t k).map (· + d.length) := by
  induction d with
  | nil => cases ht : dictFind t k <;> simp [ht]
  | cons x xs ih =>
    have hk : k ≠ x := fun he => h (he ▸ List.mem_cons_self x xs)
    have hxs : k ∉ xs := fun he => h (List.mem_cons_of_mem x he)
    have e1 : dictFind ((x :: xs) ++ t) k = (dictFind (xs ++ t) k).map (· + 1) := by
      rw [List.cons_append]
      simp [dictFind, hk]
    rw [e1, ih hxs]
    cases ht : dictFind t k with
    | none => simp
    | some a =>
      simp only [Option.map_some', List.length_cons, Option.some_inj]
      omega

theorem dictFind_of_nodup :
    ∀ {d : List String}, d.Nodup → ∀ {i : Nat} {k : String},
      d.get? i = some k → dictFind d k = some i := by
  intro d
  induction d with
  | nil => intro _ i k h; simp at h
  | cons x xs ih =>
    intro hnd i k h
    match i with
    | 0 =>
      rw [List.get?_cons_zero, Option.some_inj] at h
      simp [dictFind, h]
    | j + 1 =>
      rw [List.get?_cons_succ] at h
      have hmem : k ∈ xs := List.get?_mem h
      have hk : k ≠ x := by
        rintro rfl
        exact (List.nodup_cons.mp hnd).1 hmem
      simp [dictFind, hk, ih (List.nodup_cons.mp hnd).2 h]

/-! ## `find_or_create` lemmas -/

theorem foc_eq_of_some {d : List String} {k : String} {i : Nat}
    (h : dictFind d k = some i) : find_or_create d k = (i, d) := by
  unfold find_or_create
  rw [h]

theorem foc_eq_of_none {d : List String} {k : String}
    (h : dictFind d k = none) : find_or_create d k = (d.length, d ++ [k]) := by
  unfold find_or_create
  rw [h]

theorem foc_extend (d : List String) (k : String) :
    ∃ t, (find_or_create d k).2 = d ++ t := by
  unfold find_or_create
  cases h : dictFind d k
  · exact ⟨[k], rfl⟩
  · exact ⟨[], by simp⟩

theorem foc_mem_iff (d : List String) (k a : String) :
    a ∈ (find_or_create d k).2 ↔ a ∈ d ∨ a = k := by
  unfold find_or_create
  cases h : dictFind d k with
  | none => simp
  | some i =>
    have : k ∈ d := by
      have := dictFind_get? h
      exact List.get?_mem this
    simp only
    constructor
    · exact Or.inl
    · rintro (ha | rfl)
      · exact ha
      · exact this

theorem foc_nodup (d : List String) (k : String) (h : d.Nodup) :
    (find_or_create d k).2.Nodup := by
  unfold find_or_create
  cases hf : dictFind d k with
  | none =>
    simp only
    have : k ∉ d := dictFind_eq_none.mp hf
    simp [List.nodup_append, h, this]
  | some i => exact h

theorem foc_find (d : List String) (k : String) :
    dictFind (find_or_create d k).2 k = some (find_or_create d k).1 := by
  unfold find_or_create
  cases hf : dictFind d k with
  | none =>
    have hnm : k ∉ d := dictFind_eq_none.mp hf
    simp only
    rw [dictFind_append_of_not_mem hnm]
    simp [dictFind]
  | some i => exact hf

theorem foc_find_other (d : List String) (k c : String) (h : c ≠ k) :
    dictFind (find_or_create d k).2 c = dictFind d c := by
  unfold find_or_create
  cases hf : dictFind d k with
  | none =>
    simp only
    cases hc : dictFind d c with
    | none =>
      have hnm : c ∉ d := dictFind_eq_none.mp hc
      rw [dictFind_append_of_not_mem hnm]
      simp [dictFind, h]
    | some j => exact dictFind_append_left hc
  | some i => rfl

theorem foc_fst_lt (d : List String) (k : String) :
    (find_or_create d k).1 < (find_or_create d k).2.length := by
  have := foc_find d k
  exact dictFind_lt this

theorem foc_length_le (d : List String) (k : String) :
    d.length ≤ (find_or_create d k).2.length := by
  obtain ⟨t, ht⟩ := foc_extend d k
  simp [ht]

/-! ## Claim theorems: dictionary (C7) -/

/-- C7: interning is idempotent (the second call returns the same id and
leaves the dictionary unchanged), the returned id indexes the key inside
the dictionary, a genuinely new key gets id `= size` with the dictionary
extended by exactly that key, and an existing key keeps its id — so ids are
exactly the contiguous list positions `[0, size)`, in first-seen order. -/
theorem find_or_create_contract (d : List String) (k : String) :
    find_or_create (find_or_create d k).2 k = find_or_create d k ∧
    (find_or_create d k).1 < (find_or_create d k).2.length ∧
    (find_or_create d k).2.get? (find_or_create d k).1 = some k ∧
    (find_or_create d k).1 = (dictFind d k).getD d.length ∧
    (find_or_create d k).2 = (if dictFind d k = none then d ++ [k] else d) := by
  refine ⟨?_, foc_fst_lt d k, dictFind_get? (foc_find d k), ?_, ?_⟩
  · rw [foc_eq_of_some (foc_find d k)]
  · cases hf : dictFind d k with
    | none => rw [foc_eq_of_none hf]; simp [hf]
    | some i => rw [foc_eq_of_some hf]; simp [hf]
  · cases hf : dictFind d k with
    | none => rw [foc_eq_of_none hf]; simp [hf]
    | some i => rw [foc_eq_of_some hf]; simp [hf]

/-! ## Claim theorems: chunk partitioning (C2) -/

/-- C2 (refuting evaluation): for any input length `0 < L <` `block_size`,
`process_concurrently` computes `chunks_count = L / block_size = 0` and
builds no chunk at all — not the single whole-range chunk the claim states,
so none of the input's records are processed. -/
theorem chunksOf_small_eq_nil (L : Nat) (_h0 : 0 < L) (h1 : L < BLOCK) :
    chunksOf L = [] := by
  unfold chunksOf
  rw [Nat.div_eq_of_lt h1]
  rfl

/-- Witness: the 55-byte round-trip input from the specification gets zero
chunks. -/
theorem chunksOf_small_eq_nil_w : 0 < 55 ∧ 55 < BLOCK ∧ chunksOf 55 = [] :=
  ⟨by decide, by decide, chunksOf_small_eq_nil 55 (by decide) (by decide)⟩

/-! ## Claim theorems: price decoding (C6, C10) -/

/-- C6: a price field with a single fractional digit is promoted to
hundredths by the `*= 10` scaling — for every digit `d`, `3.d` decodes to
`(30 + d) * 10` hundredths, in particular `3.5` decodes to 350, not 305 or
35 — while a two-digit fraction is accumulated without scaling (`1.50`
decodes to 150); in each case the decoder consumes through the newline. -/
theorem consume_float_fraction_scaling (rest : List Char)
    (h : rest.head? ≠ some '\n') :
    consume_float_as_long ('3' :: '.' :: '5' :: '\n' :: rest) = (350, rest) ∧
    consume_float_as_long ('1' :: '.' :: '5' :: '0' :: '\n' :: rest) = (150, rest) ∧
    ∀ d : Char, '0' ≤ d → d ≤ '9' →
      consume_float_as_long ('3' :: '.' :: d :: '\n' :: rest)
        = ((30 + ((d.toNat : Int) - 48)) * 10, rest) := by
  refine ⟨?_, ?_, ?_⟩
  · have e : consume_float_as_long ('3' :: '.' :: '5' :: '\n' :: rest)
        = (350, if rest.head? = some '\n' then rest.drop 1 else rest) := rfl
    rw [e, if_neg h]
  · have e : consume_float_as_long ('1' :: '.' :: '5' :: '0' :: '\n' :: rest)
        = (150, if rest.head? = some '\n' then rest.drop 1 else rest) := rfl
    rw [e, if_neg h]
  · intro d h0 h9
    have h1 : readInt ('3' :: '.' :: d :: '\n' :: rest) 0
        = (3, '.', '.' :: d :: '\n' :: rest) := rfl
    have h2 : readFrac (d :: '\n' :: rest) 3 0
        = (3 * 10 + ((d.toNat : Int) - 48), 1, '\n' :: rest) := by
      rw [readFrac, if_pos ⟨h0, h9⟩, readFrac, if_neg (by decide)]
    unfold consume_float_as_long
    rw [h1]
    simp only [List.drop_succ_cons, List.drop_zero, if_true, h2]
    rw [if_neg h]
    norm_num

/-- Witness for C6 at a concrete following byte. -/
theorem consume_float_fraction_scaling_w :
    (['A'].head? ≠ some '\n') ∧
    (consume_float_as_long ('3' :: '.' :: '5' :: '\n' :: ['A']) = (350, ['A']) ∧
    consume_float_as_long ('1' :: '.' :: '5' :: '0' :: '\n' :: ['A']) = (150, ['A']) ∧
    ∀ d : Char, '0' ≤ d → d ≤ '9' →
      consume_float_as_long ('3' :: '.' :: d :: '\n' :: ['A'])
        = ((30 + ((d.toNat : Int) - 48)) * 10, ['A'])) :=
  ⟨by decide, consume_float_fraction_scaling ['A'] (by decide)⟩

/-- C10: with no dot present the accumulated integer is returned unscaled
(the field `3` decodes to 3 hundredths, not 300) and exactly one terminator
byte is skipped — in particular, after `3\r\n` the decoder has consumed only
the `'\r'`, leaving the `'\n'`, because the extra carriage-return handling
only exists in the fractional branch. -/
theorem consume_float_no_fraction (rest : List Char) :
    consume_float_as_long ('3' :: '\n' :: rest) = (3, rest) ∧
    consume_float_as_long ('3' :: '\r' :: '\n' :: rest) = (3, '\n' :: rest) :=
  ⟨rfl, rfl⟩

/-! ## `internAll` lemmas -/

theorem internAll_nil (d : List String) : internAll d [] = d := rfl

theorem internAll_cons (d : List String) (k : String) (ks : List String) :
    internAll d (k :: ks) = internAll (find_or_create d k).2 ks := rfl

theorem internAll_extend (d ks : List String) : ∃ t, internAll d ks = d ++ t := by
  induction ks generalizing d with
  | nil => exact ⟨[], by simp [internAll_nil]⟩
  | cons k ks ih =>
    obtain ⟨t1, h1⟩ := foc_extend d k
    obtain ⟨t2, h2⟩ := ih (find_or_create d k).2
    exact ⟨t1 ++ t2, by rw [internAll_cons, h2, h1, List.append_assoc]⟩

theorem internAll_mem (d ks : List String) (a : String) :
    a ∈ internAll d ks ↔ a ∈ d ∨ a ∈ ks := by
  induction ks generalizing d with
  | nil => simp [internAll_nil]
  | cons k ks ih =>
    rw [internAll_cons, ih]
    rw [foc_mem_iff]
    simp only [List.mem_cons]
    tauto

theorem internAll_nodup (d ks : List String) (h : d.Nodup) : (internAll d ks).Nodup := by
  induction ks generalizing d with
  | nil => exact h
  | cons k ks ih => exact ih _ (foc_nodup d k h)

theorem dictFind_mem {d : List String} {k : String} (h : k ∈ d) :
    ∃ i, dictFind d k = some i := by
  cases hf : dictFind d k with
  | none => exact absurd h (dictFind_eq_none.mp hf)
  | some i => exact ⟨i, rfl⟩

theorem internAll_of_mem (d ks : List String) (h : ∀ k ∈ ks, k ∈ d) :
    internAll d ks = d := by
  induction ks with
  | nil => rfl
  | cons k ks ih =>
    obtain ⟨i, hi⟩ := dictFind_mem (h k (List.mem_cons_self k ks))
    rw [internAll_cons]
    have : (find_or_create d k).2 = d := by rw [foc_eq_of_some hi]
    rw [this]
    exact ih (fun a ha => h a (List.mem_cons_of_mem k ha))

theorem dictFind_internAll {d : List String} {c : String} {i : Nat} (ks : List String)
    (h : dictFind d c = some i) : dictFind (internAll d ks) c = some i := by
  obtain ⟨t, ht⟩ := internAll_extend d ks
  rw [ht]
  exact dictFind_append_left h

theorem internAll_length_le (d ks : List String) : d.length ≤ (internAll d ks).length := by
  obtain ⟨t, ht⟩ := internAll_extend d ks
  simp [ht]

/-! ## Spec-side sum/min lemmas -/

theorem citySum_nil (c : String) : citySum [] c = 0 := rfl

theorem citySum_cons (x : Rec) (l : List Rec) (c : String) :
    citySum (x :: l) c = (if x.city = c then x.price else 0) + citySum l c := by
  unfold citySum
  by_cases h : x.city = c <;> simp [h]

theorem citySum_append (l1 l2 : List Rec) (c : String) :
    citySum (l1 ++ l2) c = citySum l1 c + citySum l2 c := by
  unfold citySum
  rw [List.filter_append, List.map_append, List.sum_append]

theorem citySum_snoc (A : List Rec) (x : Rec) (c : String) :
    citySum (A ++ [x]) c = citySum A c + (if x.city = c then x.price else 0) := by
  rw [citySum_append, citySum_cons, citySum_nil, add_zero]

theorem citySum_eq_zero {l : List Rec} {c : String} (h : ∀ x ∈ l, x.city ≠ c) :
    citySum l c = 0 := by
  induction l with
  | nil => rfl
  | cons x l ih =>
    rw [citySum_cons, if_neg (h x (List.mem_cons_self x l))]
    rw [ih (fun a ha => h a (List.mem_cons_of_mem x ha))]
    ring

theorem pairMin_nil (c p : String) : pairMin [] c p = SENTINEL := rfl

theorem pairMin_cons (x : Rec) (l : List Rec) (c p : String) :
    pairMin (x :: l) c p =
    if x.city = c ∧ x.product = p then min x.price (pairMin l c p) else pairMin l c p := by
  unfold pairMin
  by_cases h : x.city = c ∧ x.product = p <;> simp [h]

theorem pairMin_le (l : List Rec) (c p : String) : pairMin l c p ≤ SENTINEL := by
  induction l with
  | nil => exact le_refl _
  | cons x l ih =>
    rw [pairMin_cons]
    split
    · exact le_trans (min_le_right _ _) ih
    · exact ih

theorem pairMin_append (l1 l2 : List Rec) (c p : String) :
    pairMin (l1 ++ l2) c p = min (pairMin l1 c p) (pairMin l2 c p) := by
  induction l1 with
  | nil =>
    rw [List.nil_append, pairMin_nil]
    exact (min_eq_right (pairMin_le l2 c p)).symm
  | cons x l ih =>
    rw [List.cons_append, pairMin_cons, pairMin_cons, ih]
    split
    · rw [min_assoc]
    · rfl

theorem pairMin_snoc (A : List Rec) (x : Rec) (c p : String) :
    pairMin (A ++ [x]) c p =
    if x.city = c ∧ x.product = p then min (pairMin A c p) x.price else pairMin A c p := by
  rw [pairMin_append]
  by_cases h : x.city = c ∧ x.product = p
  · rw [if_pos h, pairMin_cons, if_pos h, pairMin_nil]
    rw [← min_assoc]
    exact min_eq_left (le_trans (min_le_left _ _) (pairMin_le A c p))
  · rw [if_neg h, pairMin_cons, if_neg h, pairMin_nil]
    exact min_eq_left (pairMin_le A c p)

theorem pairMin_eq_sentinel {l : List Rec} {c p : String}
    (h : ∀ x ∈ l, ¬(x.city = c ∧ x.product = p)) : pairMin l c p = SENTINEL := by
  induction l with
  | nil => rfl
  | cons x l ih =>
    rw [pairMin_cons, if_neg (h x (List.mem_cons_self x l))]
    exact ih (fun a ha => h a (List.mem_cons_of_mem x ha))

/-! ## Point-update lemmas -/

theorem upd1_same (f : Nat → Int) (i : Nat) (v : Int) : upd1 f i v i = v := by
  simp [upd1]

theorem upd1_other (f : Nat → Int) (i : Nat) (v : Int) {x : Nat} (h : x ≠ i) :
    upd1 f i v x = f x := by
  simp [upd1, h]

theorem upd2_same (f : Nat → Nat → Int) (i j : Nat) (v : Int) : upd2 f i j v i j = v := by
  simp [upd2]

theorem upd2_other (f : Nat → Nat → Int) (i j : Nat) (v : Int) {x y : Nat}
    (h : ¬(x = i ∧ y = j)) : upd2 f i j v x y = f x y := by
  simp only [upd2, if_neg h]

/-! ## Observable-equation lemmas -/

theorem cityTotalOf_eq_some {r : Result} {c : String} {i : Nat}
    (h : dictFind r.city_id c = some i) : cityTotalOf r c = r.city_cost i := by
  unfold cityTotalOf
  rw [h]

theorem cityTotalOf_eq_none {r : Result} {c : String}
    (h : dictFind r.city_id c = none) : cityTotalOf r c = 0 := by
  unfold cityTotalOf
  rw [h]

theorem pcell_eq_some {r : Result} {p : String} {j : Nat} (i : Nat)
    (h : dictFind r.product_id p = some j) : pcell r i p = r.product_cost i j := by
  unfold pcell
  rw [h]

theorem pcell_eq_none {r : Result} {p : String} (i : Nat)
    (h : dictFind r.product_id p = none) : pcell r i p = SENTINEL := by
  unfold pcell
  rw [h]

theorem pairMinOf_eq_some {r : Result} {c : String} {i : Nat} (p : String)
    (h : dictFind r.city_id c = some i) : pairMinOf r c p = pcell r i p := by
  unfold pairMinOf
  rw [h]

theorem pairMinOf_eq_none {r : Result} {c : String} (p : String)
    (h : dictFind r.city_id c = none) : pairMinOf r c p = SENTINEL := by
  unfold pairMinOf
  rw [h]

/-! ## `step` lemmas -/

theorem step_city_id (r : Result) (x : Rec) :
    (step r x).city_id = (find_or_create r.city_id x.city).2 := rfl

theorem step_product_id (r : Result) (x : Rec) :
    (step r x).product_id = (find_or_create r.product_id x.product).2 := rfl

theorem step_city_cost (r : Result) (x : Rec) :
    (step r x).city_cost = upd1 r.city_cost (find_or_create r.city_id x.city).1
      (r.city_cost (find_or_create r.city_id x.city).1 + x.price) := rfl

theorem step_product_cost (r : Result) (x : Rec) :
    (step r x).product_cost = upd2 r.product_cost (find_or_create r.city_id x.city).1
      (find_or_create r.product_id x.product).1
      (min (r.product_cost (find_or_create r.city_id x.city).1
        (find_or_create r.product_id x.product).1) x.price) := rfl

theorem foc_ne_index {d : List String} {c k : String} {i : Nat} (h : c ≠ k)
    (hf : dictFind d c = some i) : i ≠ (find_or_create d k).1 := by
  cases hk : dictFind d k with
  | some n =>
    rw [foc_eq_of_some hk]
    intro he
    exact h (dictFind_inj hf (he ▸ hk))
  | none =>
    rw [foc_eq_of_none hk]
    intro he
    have := dictFind_lt hf
    simp only at he
    omega

theorem cost_at_foc (r : Result) (c : String)
    (hz : ∀ i, r.city_id.length ≤ i → r.city_cost i = 0) :
    r.city_cost (find_or_create r.city_id c).1 = cityTotalOf r c := by
  cases hf : dictFind r.city_id c with
  | some i =>
    rw [foc_eq_of_some hf, cityTotalOf_eq_some hf]
  | none =>
    rw [foc_eq_of_none hf, cityTotalOf_eq_none hf]
    exact hz _ (le_refl _)

theorem cell_at_foc (r : Result) (c p : String)
    (hs : ∀ i j, r.city_id.length ≤ i ∨ r.product_id.length ≤ j →
      r.product_cost i j = SENTINEL) :
    r.product_cost (find_or_create r.city_id c).1 (find_or_create r.product_id p).1 =
      pairMinOf r c p := by
  cases hf : dictFind r.city_id c with
  | some i =>
    rw [foc_eq_of_some hf, pairMinOf_eq_some p hf]
    cases hg : dictFind r.product_id p with
    | some j => rw [foc_eq_of_some hg, pcell_eq_some i hg]
    | none =>
      rw [foc_eq_of_none hg, pcell_eq_none i hg]
      exact hs _ _ (Or.inr (le_refl _))
  | none =>
    rw [foc_eq_of_none hf, pairMinOf_eq_none p hf]
    exact hs _ _ (Or.inl (le_refl _))

theorem cityTotalOf_step_self (r : Result) (x : Rec)
    (hz : ∀ i, r.city_id.length ≤ i → r.city_cost i = 0) :
    cityTotalOf (step r x) x.city = cityTotalOf r x.city + x.price := by
  have hcf : dictFind (step r x).city_id x.city
      = some (find_or_create r.city_id x.city).1 := by
    rw [step_city_id]
    exact foc_find r.city_id x.city
  rw [cityTotalOf_eq_some hcf, step_city_cost, upd1_same, cost_at_foc r x.city hz]

theorem cityTotalOf_step_other (r : Result) (x : Rec) (c : String) (h : c ≠ x.city) :
    cityTotalOf (step r x) c = cityTotalOf r c := by
  have hst : dictFind (step r x).city_id c = dictFind r.city_id c := by
    rw [step_city_id]
    exact foc_find_other r.city_id x.city c h
  cases hf : dictFind r.city_id c with
  | none =>
    rw [cityTotalOf_eq_none (hst.trans hf), cityTotalOf_eq_none hf]
  | some i =>
    rw [cityTotalOf_eq_some (hst.trans hf), cityTotalOf_eq_some hf,
      step_city_cost, upd1_other _ _ _ (foc_ne_index h hf)]

theorem pairMinOf_step_self (r : Result) (x : Rec)
    (hs : ∀ i j, r.city_id.length ≤ i ∨ r.product_id.length ≤ j →
      r.product_cost i j = SENTINEL) :
    pairMinOf (step r x) x.city x.product
      = min (pairMinOf r x.city x.product) x.price := by
  have hcf : dictFind (step r x).city_id x.city
      = some (find_or_create r.city_id x.city).1 := by
    rw [step_city_id]
    exact foc_find r.city_id x.city
  have hpf : dictFind (step r x).product_id x.product
      = some (find_or_create r.product_id x.product).1 := by
    rw [step_product_id]
    exact foc_find r.product_id x.product
  rw [pairMinOf_eq_some x.product hcf, pcell_eq_some _ hpf, step_product_cost,
    upd2_same, cell_at_foc r x.city x.product hs]

theorem pairMinOf_step_other (r : Result) (x : Rec) (c p : String)
    (h : ¬(x.city = c ∧ x.product = p))
    (hs : ∀ i j, r.city_id.length ≤ i ∨ r.product_id.length ≤ j →
      r.product_cost i j = SENTINEL) :
    pairMinOf (step r x) c p = pairMinOf r c p := by
  by_cases hc : c = x.city
  · subst hc
    have hp : p ≠ x.product := by
      rintro rfl
      exact h ⟨rfl, rfl⟩
    have hcf : dictFind (step r x).city_id x.city
        = some (find_or_create r.city_id x.city).1 := by
      rw [step_city_id]
      exact foc_find r.city_id x.city
    have hpst : dictFind (step r x).product_id p = dictFind r.product_id p := by
      rw [step_product_id]
      exact foc_find_other r.product_id x.product p hp
    rw [pairMinOf_eq_some p hcf]
    cases hg : dictFind r.product_id p with
    | none =>
      rw [pcell_eq_none _ (hpst.trans hg)]
      cases hf : dictFind r.city_id x.city with
      | some i =>
        rw [pairMinOf_eq_some p hf, pcell_eq_none i hg]
      | none => rw [pairMinOf_eq_none p hf]
    | some j =>
      have hj : j ≠ (find_or_create r.product_id x.product).1 := foc_ne_index hp hg
      rw [pcell_eq_some _ (hpst.trans hg), step_product_cost,
        upd2_other _ _ _ _ (fun hand => hj hand.2)]
      cases hf : dictFind r.city_id x.city with
      | some i =>
        rw [pairMinOf_eq_some p hf, pcell_eq_some i hg, foc_eq_of_some hf]
      | none =>
        rw [pairMinOf_eq_none p hf, foc_eq_of_none hf]
        exact hs _ _ (Or.inl (le_refl _))
  · have hcst : dictFind (step r x).city_id c = dictFind r.city_id c := by
      rw [step_city_id]
      exact foc_find_other r.city_id x.city c hc
    cases hf : dictFind r.city_id c with
    | none =>
      rw [pairMinOf_eq_none p (hcst.trans hf), pairMinOf_eq_none p hf]
    | some i =>
      have hi : i ≠ (find_or_create r.city_id x.city).1 := foc_ne_index hc hf
      rw [pairMinOf_eq_some p (hcst.trans hf), pairMinOf_eq_some p hf]
      by_cases hp : p = x.product
      · subst hp
        have hpf : dictFind (step r x).product_id x.product
            = some (find_or_create r.product_id x.product).1 := by
          rw [step_product_id]
          exact foc_find r.product_id x.product
        rw [pcell_eq_some _ hpf, step_product_cost,
          upd2_other _ _ _ _ (fun hand => hi hand.1)]
        cases hg : dictFind r.product_id x.product with
        | some j => rw [pcell_eq_some i hg, foc_eq_of_some hg]
        | none =>
          rw [pcell_eq_none i hg, foc_eq_of_none hg]
          exact hs _ _ (Or.inr (le_refl _))
      · have hpst : dictFind (step r x).product_id p = dictFind r.product_id p := by
          rw [step_product_id]
          exact foc_find_other r.product_id x.product p hp
        cases hg : dictFind r.product_id p with
        | none => rw [pcell_eq_none _ (hpst.trans hg), pcell_eq_none i hg]
        | some j =>
          rw [pcell_eq_some _ (hpst.trans hg), pcell_eq_some i hg,
            step_product_cost, upd2_other _ _ _ _ (fun hand => hi hand.1)]

/-! ## The coupling invariant between processed records and an aggregate -/


theorem inv_nil : Models [] emptyResult := by
  constructor
  · exact List.nodup_nil
  · exact List.nodup_nil
  · intro x hx; cases hx
  · intro x hx; cases hx
  · intro c hc; cases hc
  · intro p hp; cases hp
  · intro c; rfl
  · intro c p; rfl
  · intro i _; rfl
  · intro i j _; rfl

theorem inv_step {A : List Rec} {r : Result} (h : Models A r) (x : Rec) :
    Models (A ++ [x]) (step r x) := by
  constructor
  · rw [step_city_id]
    exact foc_nodup _ _ h.cnd
  · rw [step_product_id]
    exact foc_nodup _ _ h.pnd
  · intro y hy
    rw [step_city_id, foc_mem_iff]
    rw [List.mem_append] at hy
    cases hy with
    | inl hA => exact Or.inl (h.cmem y hA)
    | inr hx =>
      rw [List.mem_singleton] at hx
      subst hx
      exact Or.inr rfl
  · intro y hy
    rw [step_product_id, foc_mem_iff]
    rw [List.mem_append] at hy
    cases hy with
    | inl hA => exact Or.inl (h.pmem y hA)
    | inr hx =>
      rw [List.mem_singleton] at hx
      subst hx
      exact Or.inr rfl
  · intro c hc
    rw [step_city_id, foc_mem_iff] at hc
    cases hc with
    | inl hd =>
      obtain ⟨y, hy, he⟩ := h.csub c hd
      exact ⟨y, List.mem_append_left _ hy, he⟩
    | inr he =>
      exact ⟨x, List.mem_append_right _ (List.mem_singleton_self x), he.symm⟩
  · intro p hp
    rw [step_product_id, foc_mem_iff] at hp
    cases hp with
    | inl hd =>
      obtain ⟨y, hy, he⟩ := h.psub p hd
      exact ⟨y, List.mem_append_left _ hy, he⟩
    | inr he =>
      exact ⟨x, List.mem_append_right _ (List.mem_singleton_self x), he.symm⟩
  · intro c
    rw [citySum_snoc, ← h.csum c]
    by_cases hcx : c = x.city
    · subst hcx
      rw [if_pos rfl, cityTotalOf_step_self r x h.czero]
    · rw [if_neg (fun he => hcx he.symm), add_zero,
        cityTotalOf_step_other r x c hcx]
  · intro c p
    rw [pairMin_snoc, ← h.pmin c p]
    by_cases hm : x.city = c ∧ x.product = p
    · obtain ⟨hc1, hp1⟩ := hm
      subst hc1
      subst hp1
      rw [if_pos ⟨rfl, rfl⟩, pairMinOf_step_self r x h.psent]
    · rw [if_neg hm, pairMinOf_step_other r x c p hm h.psent]
  · intro i hi
    rw [step_city_id] at hi
    rw [step_city_cost]
    have hlt : (find_or_create r.city_id x.city).1 < (find_or_create r.city_id x.city).2.length :=
      foc_fst_lt _ _
    rw [upd1_other _ _ _ (by omega)]
    exact h.czero i (le_trans (foc_length_le _ _) hi)
  · intro i j hij
    rw [step_city_id, step_product_id] at hij
    rw [step_product_cost]
    have hlc : (find_or_create r.city_id x.city).1 < (find_or_create r.city_id x.city).2.length :=
      foc_fst_lt _ _
    have hlp : (find_or_create r.product_id x.product).1 < (find_or_create r.product_id x.product).2.length :=
      foc_fst_lt _ _
    have hne : ¬(i = (find_or_create r.city_id x.city).1 ∧
        j = (find_or_create r.product_id x.product).1) := by
      rintro ⟨rfl, rfl⟩
      cases hij with
      | inl hh => omega
      | inr hh => omega
    rw [upd2_other _ _ _ _ hne]
    refine h.psent i j ?_
    cases hij with
    | inl hh => exact Or.inl (le_trans (foc_length_le _ _) hh)
    | inr hh => exact Or.inr (le_trans (foc_length_le _ _) hh)

theorem inv_foldl {A : List Rec} {r : Result} (h : Models A r) (l : List Rec) :
    Models (A ++ l) (l.foldl step r) := by
  induction l generalizing A r with
  | nil => simpa using h
  | cons y l ih =>
    have h1 := inv_step h y
    have h2 := ih h1
    rw [List.append_assoc] at h2
    simpa using h2

theorem inv_process_chunk (recs : List Rec) : Models recs (process_chunk recs) := by
  have := inv_foldl inv_nil recs
  simpa [process_chunk] using this

/-! ## Merge-loop lemmas -/

theorem pcell_at_foc (r : Result) (c p : String)
    (hs : ∀ i j, r.city_id.length ≤ i ∨ r.product_id.length ≤ j →
      r.product_cost i j = SENTINEL) :
    pcell r (find_or_create r.city_id c).1 p = pairMinOf r c p := by
  cases hf : dictFind r.city_id c with
  | some i => rw [foc_eq_of_some hf, pairMinOf_eq_some p hf]
  | none =>
    rw [foc_eq_of_none hf, pairMinOf_eq_none p hf]
    cases hg : dictFind r.product_id p with
    | some j =>
      rw [pcell_eq_some _ hg]
      exact hs _ _ (Or.inl (le_refl _))
    | none => exact pcell_eq_none _ hg

theorem enumPairs_map_snd (n : Nat) (d : List String) :
    (enumPairs n d).map Prod.snd = d := by
  induction d generalizing n with
  | nil => rfl
  | cons x xs ih => simp [enumPairs, ih]

theorem enumPairs_mem {n : Nat} {d : List String} {q : Nat × String}
    (h : q ∈ enumPairs n d) : n ≤ q.1 ∧ d.get? (q.1 - n) = some q.2 := by
  induction d generalizing n with
  | nil => cases h
  | cons x xs ih =>
    rw [enumPairs, List.mem_cons] at h
    cases h with
    | inl he =>
      subst he
      exact ⟨le_refl _, by simp⟩
    | inr he =>
      obtain ⟨h1, h2⟩ := ih he
      refine ⟨by omega, ?_⟩
      have hq : q.1 - n = (q.1 - (n + 1)) + 1 := by omega
      rw [hq, List.get?_cons_succ]
      exact h2

theorem enumPairs_find? (n : Nat) (d : List String) (p : String) :
    (enumPairs n d).find? (fun s => s.2 == p) = (dictFind d p).map (fun j => (j + n, p)) := by
  induction d generalizing n with
  | nil => rfl
  | cons x xs ih =>
    rw [enumPairs]
    by_cases hp : p = x
    · subst hp
      rw [List.find?_cons_of_pos _ (by simp), dictFind]
      simp
    · rw [List.find?_cons_of_neg _
          (by simp only [beq_iff_eq]; exact fun h => hp h.symm),
        ih (n + 1), dictFind, if_neg hp]
      cases ht : dictFind xs p with
      | none => simp
      | some j =>
        simp only [Option.map_some', Option.some_inj, Prod.mk.injEq, and_true]
        omega

theorem pairMinOf_stable {acc acc2 : Result} {ncid : Nat} (c p : String)
    (hdc : dictFind acc2.city_id c = dictFind acc.city_id c)
    (hext : ∃ t, acc2.product_id = acc.product_id ++ t)
    (hrow : ∀ x y, x ≠ ncid → acc2.product_cost x y = acc.product_cost x y)
    (hnc : ∀ i, dictFind acc.city_id c = some i → i ≠ ncid)
    (hs : ∀ i j, acc.city_id.length ≤ i ∨ acc.product_id.length ≤ j →
      acc.product_cost i j = SENTINEL) :
    pairMinOf acc2 c p = pairMinOf acc c p := by
  cases hf : dictFind acc.city_id c with
  | none => rw [pairMinOf_eq_none p (hdc.trans hf), pairMinOf_eq_none p hf]
  | some i =>
    have hne := hnc i hf
    rw [pairMinOf_eq_some p (hdc.trans hf), pairMinOf_eq_some p hf]
    obtain ⟨t, ht⟩ := hext
    cases hg : dictFind acc.product_id p with
    | some j =>
      have hd2 : dictFind acc2.product_id p = some j := by
        rw [ht]
        exact dictFind_append_left hg
      rw [pcell_eq_some _ hd2, pcell_eq_some _ hg, hrow i j hne]
    | none =>
      have hnm : p ∉ acc.product_id := dictFind_eq_none.mp hg
      rw [pcell_eq_none _ hg]
      cases hg2 : dictFind acc2.product_id p with
      | none => exact pcell_eq_none _ hg2
      | some j2 =>
        rw [pcell_eq_some _ hg2, hrow i j2 hne]
        have hge : acc.product_id.length ≤ j2 := by
          rw [ht, dictFind_append_of_not_mem hnm] at hg2
          cases hdt : dictFind t p with
          | none => rw [hdt] at hg2; cases hg2
          | some a =>
            rw [hdt] at hg2
            simp only [Option.map_some', Option.some_inj] at hg2
            omega
        exact hs i j2 (Or.inr hge)


theorem mergeProdsAux_spec (pc : Nat → Int) (ncid : Nat) :
    ∀ (L : List (Nat × String)) (acc : Result),
      (L.map Prod.snd).Nodup → ncid < acc.city_id.length →
      (∀ i j, acc.city_id.length ≤ i ∨ acc.product_id.length ≤ j →
        acc.product_cost i j = SENTINEL) →
      ProdStep pc ncid L acc (mergeProdsAux pc ncid L acc) := by
  intro L
  induction L with
  | nil =>
    intro acc _ _ hsent
    exact ⟨rfl, rfl, rfl, fun _ _ _ => rfl, fun p => rfl, hsent⟩
  | cons q rest ih =>
    intro acc hnd hncid hsent
    rw [List.map_cons, List.nodup_cons] at hnd
    obtain ⟨hq2, hnd'⟩ := hnd
    have hrw : mergeProdsAux pc ncid (q :: rest) acc
        = mergeProdsAux pc ncid rest (prodStep1 pc ncid q acc) := rfl
    have a1cid : (prodStep1 pc ncid q acc).city_id = acc.city_id := rfl
    have a1ccost : (prodStep1 pc ncid q acc).city_cost = acc.city_cost := rfl
    have a1pid : (prodStep1 pc ncid q acc).product_id
        = (find_or_create acc.product_id q.2).2 := rfl
    have hfl := foc_fst_lt acc.product_id q.2
    have hple := foc_length_le acc.product_id q.2
    have hncid1 : ncid < (prodStep1 pc ncid q acc).city_id.length := hncid
    have hsent1 : ∀ i j,
        (prodStep1 pc ncid q acc).city_id.length ≤ i ∨
          (prodStep1 pc ncid q acc).product_id.length ≤ j →
        (prodStep1 pc ncid q acc).product_cost i j = SENTINEL := by
      intro i j hij
      rw [a1cid] at hij
      rw [a1pid] at hij
      show upd2 acc.product_cost ncid (find_or_create acc.product_id q.2).1 _ i j = SENTINEL
      have hne : ¬(i = ncid ∧ j = (find_or_create acc.product_id q.2).1) := by
        rintro ⟨rfl, rfl⟩
        cases hij with
        | inl hh => omega
        | inr hh => omega
      rw [upd2_other _ _ _ _ hne]
      refine hsent i j ?_
      cases hij with
      | inl hh => exact Or.inl hh
      | inr hh => exact Or.inr (le_trans hple hh)
    have IH := ih (prodStep1 pc ncid q acc) hnd' hncid1 hsent1
    refine ⟨?_, ?_, ?_, ?_, ?_, ?_⟩
    · rw [hrw, IH.cid, a1cid]
    · rw [hrw, IH.ccost, a1ccost]
    · rw [hrw, IH.pdict, a1pid, List.map_cons, internAll_cons]
    · intro x y hx
      rw [hrw, IH.rows x y hx]
      show upd2 acc.product_cost ncid (find_or_create acc.product_id q.2).1 _ x y
        = acc.product_cost x y
      exact upd2_other _ _ _ _ (fun hand => hx hand.1)
    · intro p
      rw [hrw, IH.cell p]
      by_cases hp : q.2 = p
      · subst hp
        have hfind : (q :: rest).find? (fun s => s.2 == q.2) = some q :=
          List.find?_cons_of_pos _ (by simp)
        have hrest : rest.find? (fun s => s.2 == q.2) = none := by
          rw [List.find?_eq_none]
          intro s hs
          simp only [beq_iff_eq]
          exact fun he => hq2 (he ▸ List.mem_map_of_mem Prod.snd hs)
        rw [hfind, hrest]
        have hpf : dictFind (prodStep1 pc ncid q acc).product_id q.2
            = some (find_or_create acc.product_id q.2).1 := by
          rw [a1pid]
          exact foc_find acc.product_id q.2
        rw [pcell_eq_some _ hpf]
        show upd2 acc.product_cost ncid (find_or_create acc.product_id q.2).1 _ ncid
          (find_or_create acc.product_id q.2).1 = _
        rw [upd2_same]
        congr 1
        cases hg : dictFind acc.product_id q.2 with
        | some j => rw [pcell_eq_some _ hg, foc_eq_of_some hg]
        | none =>
          rw [pcell_eq_none _ hg, foc_eq_of_none hg]
          exact hsent _ _ (Or.inr (le_refl _))
      · have hfind : (q :: rest).find? (fun s => s.2 == p)
            = rest.find? (fun s => s.2 == p) :=
          List.find?_cons_of_neg _ (by simp [hp])
        rw [hfind]
        have hstable : pcell (prodStep1 pc ncid q acc) ncid p = pcell acc ncid p := by
          have hd : dictFind (prodStep1 pc ncid q acc).product_id p
              = dictFind acc.product_id p := by
            rw [a1pid]
            exact foc_find_other acc.product_id q.2 p (fun he => hp he.symm)
          cases hg : dictFind acc.product_id p with
          | none => rw [pcell_eq_none _ (hd.trans hg), pcell_eq_none _ hg]
          | some j =>
            rw [pcell_eq_some _ (hd.trans hg), pcell_eq_some _ hg]
            show upd2 acc.product_cost ncid (find_or_create acc.product_id q.2).1 _ ncid j
              = acc.product_cost ncid j
            exact upd2_other _ _ _ _
              (fun hand => (foc_ne_index (fun he => hp he.symm) hg) hand.2)
        rw [hstable]
    · intro i j hij
      rw [hrw] at hij ⊢
      exact IH.sent i j hij

theorem internAll_append (d a b : List String) :
    internAll d (a ++ b) = internAll (internAll d a) b := by
  unfold internAll
  rw [List.foldl_append]

theorem cityStep1_city_id (r : Result) (q : Nat × String) (acc : Result) :
    (cityStep1 r q acc).city_id = (find_or_create acc.city_id q.2).2 := rfl

theorem cityStep1_city_cost (r : Result) (q : Nat × String) (acc : Result) :
    (cityStep1 r q acc).city_cost
      = upd1 acc.city_cost (find_or_create acc.city_id q.2).1
        (acc.city_cost (find_or_create acc.city_id q.2).1 + r.city_cost q.1) := rfl

theorem cityStep1_product_id (r : Result) (q : Nat × String) (acc : Result) :
    (cityStep1 r q acc).product_id = acc.product_id := rfl

theorem pcell_cityStep1 (r : Result) (q : Nat × String) (acc : Result) (i : Nat) (p : String) :
    pcell (cityStep1 r q acc) i p = pcell acc i p := rfl



theorem mergeCityOne_spec (r acc : Result) (q : Nat × String)
    (hacc : Accum acc)
    (hq : dictFind r.city_id q.2 = some q.1)
    (hrpnd : r.product_id.Nodup) :
    MergeStep r acc
      (mergeProdsAux (fun j => r.product_cost q.1 j)
        (find_or_create acc.city_id q.2).1 (enumPairs 0 r.product_id)
        (cityStep1 r q acc)) [q.2] := by
  have hfl := foc_fst_lt acc.city_id q.2
  have hcle := foc_length_le acc.city_id q.2
  have hnd : ((enumPairs 0 r.product_id).map Prod.snd).Nodup := by
    rw [enumPairs_map_snd]
    exact hrpnd
  have hncid1 : (find_or_create acc.city_id q.2).1 < (cityStep1 r q acc).city_id.length := by
    rw [cityStep1_city_id]
    exact hfl
  have hsent1 : ∀ i j, (cityStep1 r q acc).city_id.length ≤ i ∨
      (cityStep1 r q acc).product_id.length ≤ j →
      (cityStep1 r q acc).product_cost i j = SENTINEL := by
    intro i j hij
    rw [cityStep1_city_id, cityStep1_product_id] at hij
    show acc.product_cost i j = SENTINEL
    refine hacc.psent i j ?_
    cases hij with
    | inl hh => exact Or.inl (le_trans hcle hh)
    | inr hh => exact Or.inr hh
  have hps := mergeProdsAux_spec (fun j => r.product_cost q.1 j)
    (find_or_create acc.city_id q.2).1 (enumPairs 0 r.product_id)
    (cityStep1 r q acc) hnd hncid1 hsent1
  have hrescid : (mergeProdsAux (fun j => r.product_cost q.1 j)
      (find_or_create acc.city_id q.2).1 (enumPairs 0 r.product_id)
      (cityStep1 r q acc)).city_id = (find_or_create acc.city_id q.2).2 := by
    rw [hps.cid, cityStep1_city_id]
  have hrespid : (mergeProdsAux (fun j => r.product_cost q.1 j)
      (find_or_create acc.city_id q.2).1 (enumPairs 0 r.product_id)
      (cityStep1 r q acc)).product_id = internAll acc.product_id r.product_id := by
    rw [hps.pdict, enumPairs_map_snd, cityStep1_product_id]
  -- the base cell of the target row, before the product loop
  have hc1 : ∀ p, pcell (cityStep1 r q acc) (find_or_create acc.city_id q.2).1 p
      = pairMinOf acc q.2 p := by
    intro p
    rw [pcell_cityStep1]
    exact pcell_at_foc acc q.2 p hacc.psent
  -- the cell of the target row after the product loop
  have hcell : ∀ p, pcell (mergeProdsAux (fun j => r.product_cost q.1 j)
      (find_or_create acc.city_id q.2).1 (enumPairs 0 r.product_id)
      (cityStep1 r q acc)) (find_or_create acc.city_id q.2).1 p
      = min (pairMinOf acc q.2 p) (pairMinOf r q.2 p) := by
    intro p
    rw [hps.cell p, enumPairs_find? 0 r.product_id p]
    cases hg : dictFind r.product_id p with
    | some j =>
      have he : (dictFind r.product_id p).map (fun j => (j + 0, p)) = some (j, p) := by
        rw [hg]
        simp
      rw [hg] at he
      rw [he]
      show min (pcell (cityStep1 r q acc) (find_or_create acc.city_id q.2).1 p)
        (r.product_cost q.1 j) = _
      rw [hc1 p, pairMinOf_eq_some p hq, pcell_eq_some _ hg]
    | none =>
      show pcell (cityStep1 r q acc) (find_or_create acc.city_id q.2).1 p = _
      rw [hc1 p, pairMinOf_eq_some p hq, pcell_eq_none _ hg]
      exact (min_eq_left (hacc.ples q.2 p)).symm
  -- observables for untouched cities
  have hpm2 : ∀ (c : String), c ≠ q.2 → ∀ p,
      pairMinOf (mergeProdsAux (fun j => r.product_cost q.1 j)
        (find_or_create acc.city_id q.2).1 (enumPairs 0 r.product_id)
        (cityStep1 r q acc)) c p = pairMinOf acc c p := by
    intro c hc p
    have hd1 : dictFind (cityStep1 r q acc).city_id c = dictFind acc.city_id c := by
      rw [cityStep1_city_id]
      exact foc_find_other acc.city_id q.2 c hc
    have hpm1 : pairMinOf (cityStep1 r q acc) c p = pairMinOf acc c p := by
      cases hf : dictFind acc.city_id c with
      | none => rw [pairMinOf_eq_none p (hd1.trans hf), pairMinOf_eq_none p hf]
      | some i =>
        rw [pairMinOf_eq_some p (hd1.trans hf), pairMinOf_eq_some p hf]
        exact pcell_cityStep1 r q acc i p
    rw [← hpm1]
    refine pairMinOf_stable c p ?_ ?_ hps.rows ?_ hsent1
    · rw [hps.cid]
    · obtain ⟨t, ht⟩ := internAll_extend (cityStep1 r q acc).product_id
        ((enumPairs 0 r.product_id).map Prod.snd)
      exact ⟨t, by rw [hps.pdict, ht]⟩
    · intro i hf
      rw [hd1] at hf
      exact foc_ne_index hc hf
  have hfq : dictFind (mergeProdsAux (fun j => r.product_cost q.1 j)
      (find_or_create acc.city_id q.2).1 (enumPairs 0 r.product_id)
      (cityStep1 r q acc)).city_id q.2 = some (find_or_create acc.city_id q.2).1 := by
    rw [hrescid]
    exact foc_find acc.city_id q.2
  have hpmq : ∀ p, pairMinOf (mergeProdsAux (fun j => r.product_cost q.1 j)
      (find_or_create acc.city_id q.2).1 (enumPairs 0 r.product_id)
      (cityStep1 r q acc)) q.2 p
      = min (pairMinOf acc q.2 p) (pairMinOf r q.2 p) := by
    intro p
    rw [pairMinOf_eq_some p hfq]
    exact hcell p
  have hctq : cityTotalOf (mergeProdsAux (fun j => r.product_cost q.1 j)
      (find_or_create acc.city_id q.2).1 (enumPairs 0 r.product_id)
      (cityStep1 r q acc)) q.2 = cityTotalOf acc q.2 + cityTotalOf r q.2 := by
    rw [cityTotalOf_eq_some hfq, hps.ccost, cityStep1_city_cost, upd1_same,
      cost_at_foc acc q.2 hacc.czero, cityTotalOf_eq_some hq]
  have hct2 : ∀ (c : String), c ≠ q.2 →
      cityTotalOf (mergeProdsAux (fun j => r.product_cost q.1 j)
        (find_or_create acc.city_id q.2).1 (enumPairs 0 r.product_id)
        (cityStep1 r q acc)) c = cityTotalOf acc c := by
    intro c hc
    have hd : dictFind (mergeProdsAux (fun j => r.product_cost q.1 j)
        (find_or_create acc.city_id q.2).1 (enumPairs 0 r.product_id)
        (cityStep1 r q acc)).city_id c = dictFind acc.city_id c := by
      rw [hrescid]
      exact foc_find_other acc.city_id q.2 c hc
    cases hf : dictFind acc.city_id c with
    | none => rw [cityTotalOf_eq_none (hd.trans hf), cityTotalOf_eq_none hf]
    | some i =>
      rw [cityTotalOf_eq_some (hd.trans hf), cityTotalOf_eq_some hf, hps.ccost,
        cityStep1_city_cost, upd1_other _ _ _ (foc_ne_index hc hf)]
  refine ⟨?_, ?_, ?_, ⟨?_, ?_, ?_, hps.sent, ?_⟩, ?_, ?_⟩
  · rw [hrescid]
    rfl
  · rw [hrespid]
    obtain ⟨t, ht⟩ := internAll_extend acc.product_id r.product_id
    refine ⟨t, ht, ?_⟩
    intro p hp
    have hnd2 : (acc.product_id ++ t).Nodup := by
      rw [← ht]
      exact internAll_nodup _ _ hacc.pnd
    have hdisj := (List.nodup_append.mp hnd2).2.2
    have hmem : p ∈ internAll acc.product_id r.product_id := by
      rw [ht]
      exact List.mem_append_right _ hp
    rcases (internAll_mem _ _ _).mp hmem with hin | hin
    · exact absurd hp (hdisj hin)
    · exact hin
  · intro _ p hp
    rw [hrespid]
    exact (internAll_mem _ _ _).mpr (Or.inr hp)
  · rw [hrescid]
    exact foc_nodup _ _ hacc.cnd
  · rw [hrespid]
    exact internAll_nodup _ _ hacc.pnd
  · intro i hi
    rw [hrescid] at hi
    rw [hps.ccost, cityStep1_city_cost, upd1_other _ _ _ (by omega)]
    exact hacc.czero i (le_trans hcle hi)
  · intro c p
    by_cases hc : c = q.2
    · rw [hc, hpmq p]
      exact le_trans (min_le_left _ _) (hacc.ples q.2 p)
    · rw [hpm2 c hc p]
      exact hacc.ples c p
  · intro c
    by_cases hc : c = q.2
    · subst hc
      rw [hctq, if_pos (List.mem_singleton_self _)]
    · rw [hct2 c hc, if_neg (by simp [hc]), add_zero]
  · intro c p
    by_cases hc : c = q.2
    · subst hc
      rw [hpmq p, if_pos (List.mem_singleton_self _)]
    · rw [hpm2 c hc p, if_neg (by simp [hc])]

theorem MergeStep.comp {r acc res1 res2 : Result} {n1 n2 : List String}
    (h1 : MergeStep r acc res1 n1) (h2 : MergeStep r res1 res2 n2)
    (hdisj : ∀ c ∈ n1, c ∉ n2) : MergeStep r acc res2 (n1 ++ n2) := by
  refine ⟨?_, ?_, ?_, h2.hacc, ?_, ?_⟩
  · rw [h2.cdict, h1.cdict, internAll_append]
  · obtain ⟨t1, ht1, hm1⟩ := h1.pext
    obtain ⟨t2, ht2, hm2⟩ := h2.pext
    refine ⟨t1 ++ t2, ?_, ?_⟩
    · rw [ht2, ht1, List.append_assoc]
    · intro p hp
      rcases List.mem_append.mp hp with hin | hin
      · exact hm1 p hin
      · exact hm2 p hin
  · intro hne p hp
    cases hn1 : n1 with
    | nil =>
      subst hn1
      exact h2.pfull (by simpa using hne) p hp
    | cons a as =>
      obtain ⟨t2, ht2, _⟩ := h2.pext
      rw [ht2]
      exact List.mem_append_left _ (h1.pfull (by simp [hn1]) p hp)
  · intro c
    rw [h2.csum c, h1.csum c]
    by_cases hc1 : c ∈ n1
    · have hc2 : c ∉ n2 := hdisj c hc1
      rw [if_pos hc1, if_neg hc2, if_pos (List.mem_append_left _ hc1), add_zero]
    · by_cases hc2 : c ∈ n2
      · rw [if_pos hc2, if_neg hc1,
          if_pos (List.mem_append_right _ hc2), add_zero]
      · rw [if_neg hc1, if_neg hc2,
          if_neg (fun hh => (List.mem_append.mp hh).elim hc1 hc2), add_zero, add_zero]
  · intro c p
    rw [h2.pmin c p, h1.pmin c p]
    by_cases hc1 : c ∈ n1
    · have hc2 : c ∉ n2 := hdisj c hc1
      rw [if_pos hc1, if_neg hc2, if_pos (List.mem_append_left _ hc1)]
    · by_cases hc2 : c ∈ n2
      · rw [if_pos hc2, if_neg hc1, if_pos (List.mem_append_right _ hc2)]
      · rw [if_neg hc1, if_neg hc2,
          if_neg (fun hh => (List.mem_append.mp hh).elim hc1 hc2)]

theorem MergeStep.refl (r acc : Result) (hacc : Accum acc) : MergeStep r acc acc [] := by
  refine ⟨rfl, ⟨[], by simp, by simp⟩, fun h => absurd rfl h, hacc, ?_, ?_⟩
  · intro c
    simp
  · intro c p
    simp

theorem mergeCitiesAux_spec (r : Result) (hrpnd : r.product_id.Nodup) :
    ∀ (L : List (Nat × String)) (acc : Result),
      Accum acc →
      (∀ q ∈ L, dictFind r.city_id q.2 = some q.1) →
      (L.map Prod.snd).Nodup →
      MergeStep r acc (mergeCitiesAux r L acc) (L.map Prod.snd) := by
  intro L
  induction L with
  | nil =>
    intro acc hacc _ _
    exact MergeStep.refl r acc hacc
  | cons q rest ih =>
    intro acc hacc hLsub hLnd
    rw [List.map_cons, List.nodup_cons] at hLnd
    obtain ⟨hq2, hnd'⟩ := hLnd
    have hstep := mergeCityOne_spec r acc q hacc
      (hLsub q (List.mem_cons_self q rest)) hrpnd
    have hrest := ih _ hstep.hacc
      (fun s hs => hLsub s (List.mem_cons_of_mem q hs)) hnd'
    have hcomp := hstep.comp hrest ?_
    · rw [List.map_cons]
      exact hcomp
    · intro c hc
      rw [List.mem_singleton] at hc
      subst hc
      exact hq2

theorem Models.accum {B : List Rec} {r : Result} (h : Models B r) : Accum r :=
  ⟨h.cnd, h.pnd, h.czero, h.psent, fun c p => by
    rw [h.pmin]
    exact pairMin_le _ _ _⟩

theorem enumPairs_dictFind {d : List String} (hnd : d.Nodup) {q : Nat × String}
    (h : q ∈ enumPairs 0 d) : dictFind d q.2 = some q.1 := by
  obtain ⟨_, hget⟩ := enumPairs_mem h
  rw [Nat.sub_zero] at hget
  exact dictFind_of_nodup hnd hget

theorem models_mergeOne {A B : List Rec} {acc r : Result}
    (hA : Models A acc) (hB : Models B r) : Models (A ++ B) (mergeOne acc r) := by
  by_cases hcity : r.city_id = []
  · have hBnil : B = [] := by
      rcases B with _ | ⟨x, xs⟩
      · rfl
      · have := hB.cmem x (List.mem_cons_self x xs)
        rw [hcity] at this
        cases this
    subst hBnil
    have hmo : mergeOne acc r = acc := by
      unfold mergeOne
      rw [hcity]
      rfl
    rw [hmo, List.append_nil]
    exact hA
  · have hspec := mergeCitiesAux_spec r hB.pnd (enumPairs 0 r.city_id) acc hA.accum
      (fun q hq => enumPairs_dictFind hB.cnd hq)
      (by rw [enumPairs_map_snd]; exact hB.cnd)
    rw [enumPairs_map_snd] at hspec
    have hmo : mergeOne acc r = mergeCitiesAux r (enumPairs 0 r.city_id) acc := rfl
    rw [hmo]
    obtain ⟨t, htp, htm⟩ := hspec.pext
    refine ⟨hspec.hacc.cnd, hspec.hacc.pnd, ?_, ?_, ?_, ?_, ?_, ?_,
      hspec.hacc.czero, hspec.hacc.psent⟩
    · intro x hx
      rw [hspec.cdict, internAll_mem]
      rcases List.mem_append.mp hx with hin | hin
      · exact Or.inl (hA.cmem x hin)
      · exact Or.inr (hB.cmem x hin)
    · intro x hx
      rcases List.mem_append.mp hx with hin | hin
      · rw [htp]
        exact List.mem_append_left _ (hA.pmem x hin)
      · exact hspec.pfull hcity x.product (hB.pmem x hin)
    · intro c hc
      rw [hspec.cdict, internAll_mem] at hc
      rcases hc with hin | hin
      · obtain ⟨x, hx, he⟩ := hA.csub c hin
        exact ⟨x, List.mem_append_left _ hx, he⟩
      · obtain ⟨x, hx, he⟩ := hB.csub c hin
        exact ⟨x, List.mem_append_right _ hx, he⟩
    · intro p hp
      rw [htp] at hp
      rcases List.mem_append.mp hp with hin | hin
      · obtain ⟨x, hx, he⟩ := hA.psub p hin
        exact ⟨x, List.mem_append_left _ hx, he⟩
      · obtain ⟨x, hx, he⟩ := hB.psub p (htm p hin)
        exact ⟨x, List.mem_append_right _ hx, he⟩
    · intro c
      rw [hspec.csum c, hA.csum c, citySum_append]
      by_cases hc : c ∈ r.city_id
      · rw [if_pos hc, hB.csum c]
      · rw [if_neg hc]
        have : citySum B c = 0 :=
          citySum_eq_zero (fun x hx he => hc (he ▸ hB.cmem x hx))
        rw [this]
    · intro c p
      rw [hspec.pmin c p, hA.pmin c p, pairMin_append]
      by_cases hc : c ∈ r.city_id
      · rw [if_pos hc, hB.pmin c p]
      · rw [if_neg hc]
        have : pairMin B c p = SENTINEL :=
          pairMin_eq_sentinel (fun x hx hand => hc (hand.1 ▸ hB.cmem x hx))
        rw [this]
        exact (min_eq_left (pairMin_le _ _ _)).symm

theorem models_merge_fold :
    ∀ (Bs : List (List Rec)) {A : List Rec} {acc : Result}, Models A acc →
      Models (A ++ Bs.flatten) (Bs.foldl (fun a b => mergeOne a (process_chunk b)) acc) := by
  intro Bs
  induction Bs with
  | nil =>
    intro A acc hA
    simpa using hA
  | cons b bs ih =>
    intro A acc hA
    have h1 := models_mergeOne hA (inv_process_chunk b)
    have h2 := ih h1
    rw [List.append_assoc] at h2
    simpa using h2

theorem models_mergeAll (chunkRecs : List (List Rec)) :
    Models chunkRecs.flatten (mergeAll (chunkRecs.map process_chunk)) := by
  have h := models_merge_fold chunkRecs inv_nil
  unfold mergeAll
  rw [List.foldl_map]
  simpa using h

/-! ## Claim theorem: global aggregate correctness (C1) -/

/-- C1: for any records fully delivered to the workers (an arbitrary split
of the record stream into chunks), the merged global aggregate is correct:
every city's recorded total equals the spec-side sum of the price field over
every record naming that city, and every (city, product) recorded minimum
equals the spec-side minimum price over the records with exactly that pair
(the sentinel when the pair never occurs). -/
theorem global_aggregate_correct (chunkRecs : List (List Rec)) :
    (∀ c, cityTotalOf (mergeAll (chunkRecs.map process_chunk)) c
      = citySum chunkRecs.flatten c) ∧
    (∀ c p, pairMinOf (mergeAll (chunkRecs.map process_chunk)) c p
      = pairMin chunkRecs.flatten c p) :=
  ⟨(models_mergeAll chunkRecs).csum, (models_mergeAll chunkRecs).pmin⟩


/-! ## Claim theorems: report padding (C3) and empty body (C4) -/

/-- C3 (refuting evaluation): on the round-trip input the byte decoder does
produce the four expected records, but the report on their aggregate is `B`
`1.50` followed by FIVE product lines: `X 0.50`, then a line for `Y` — a
product city `B` never sold — at the sentinel price, then three
default-constructed `(0, "")` lines added by `resize(5)`; never the single
product line the claim states. Moreover the real pipeline produces zero
chunks for this 55-byte file (C2), so the actual run reports only garbage:
an empty city name with the sentinel total. -/
theorem round_trip_report_padded :
    process_chunk_bytes roundTripBytes (0, 55) = roundTripRecords ∧
    reportOf (mergeAll [process_chunk roundTripRecords])
      = (("B", 150), [(50, "X"), (SENTINEL, "Y"), (0, ""), (0, ""), (0, "")]) ∧
    chunksOf roundTripBytes.length = [] ∧
    runPipeline roundTripBytes = (("", SENTINEL), List.replicate 5 (0, "")) :=
  ⟨by decide, by decide, by decide, by decide⟩

/-- C4 (refuting evaluation): an input holding only the header line gets
zero chunks, the aggregate stays empty, and the report is not empty and not
a no-data signal: it carries a winner line with the empty city name and the
sentinel total `4e18` hundredths, followed by five `(0, "")` product lines
— garbage values in the report. -/
theorem header_only_report_garbage :
    chunksOf headerBytes.length = [] ∧
    runPipeline headerBytes = (("", SENTINEL), List.replicate 5 (0, "")) ∧
    runPipeline headerBytes ≠ (("", SENTINEL), []) :=
  ⟨by decide, by decide, by decide⟩

/-! ## Claim theorem: chunk-boundary handling (C8) -/

/-- C8 (refuting evaluation): in the 18-byte input `h\nA,X,1.0\nB,Y,2.0\n`
cut into chunks `[0,10)` and `[10,18)`, the boundary falls exactly at the
start of the record `B,Y,2.0`. Parsed as a single chunk the input yields
both records; but with the two chunks, the first chunk stops at the
boundary and the second realigns past the record's own newline, so the
record is parsed by neither chunk — not "exactly once" as claimed. -/
theorem straddling_record_parsed_by_neither :
    process_chunk_bytes straddleBytes (0, 18)
      = [⟨"A", "X", 100⟩, ⟨"B", "Y", 200⟩] ∧
    process_chunk_bytes straddleBytes (0, 10) = [⟨"A", "X", 100⟩] ∧
    process_chunk_bytes straddleBytes (10, 18) = [] :=
  ⟨by decide, by decide, by decide⟩

/-! ## Order lemmas for the report's `(cost, name)` keys -/

theorem pairLe_refl (a : Int × String) : pairLe a a :=
  Or.inr ⟨rfl, le_refl _⟩

theorem pairLe_trans {a b c : Int × String} (h1 : pairLe a b) (h2 : pairLe b c) :
    pairLe a c := by
  rcases h1 with h1 | ⟨h1e, h1s⟩
  · rcases h2 with h2 | ⟨h2e, _⟩
    · exact Or.inl (lt_trans h1 h2)
    · exact Or.inl (h2e ▸ h1)
  · rcases h2 with h2 | ⟨h2e, h2s⟩
    · exact Or.inl (h1e ▸ h2)
    · exact Or.inr ⟨h1e.trans h2e, le_trans h1s h2s⟩

theorem pairLe_antisymm {a b : Int × String} (h1 : pairLe a b) (h2 : pairLe b a) :
    a = b := by
  rcases h1 with h1 | ⟨h1e, h1s⟩
  · rcases h2 with h2 | ⟨h2e, _⟩
    · exact absurd h2 (lt_asymm h1)
    · exact absurd h1 (h2e ▸ lt_irrefl _)
  · rcases h2 with h2 | ⟨_, h2s⟩
    · exact absurd h2 (h1e ▸ lt_irrefl _)
    · exact Prod.ext_iff.mpr ⟨h1e, le_antisymm h1s h2s⟩

theorem keyLt_le {a b : Int × String} (h : keyLt a b) : pairLe a b := by
  rcases h with h | ⟨he, hs⟩
  · exact Or.inl h
  · exact Or.inr ⟨he, le_of_lt hs⟩

theorem pairLe_of_not_keyLt {a b : Int × String} (h : ¬keyLt a b) : pairLe b a := by
  rw [keyLt, not_or, not_and] at h
  obtain ⟨h1, h2⟩ := h
  rcases lt_trichotomy b.1 a.1 with hlt | heq | hgt
  · exact Or.inl hlt
  · refine Or.inr ⟨heq, ?_⟩
    have := h2 heq.symm
    exact not_lt.mp this
  · exact absurd hgt h1

/-! ## The city-selection loop of `ans` -/

theorem selStep_foldl (l : List (Int × String × Nat)) :
    ∀ (init : Int × String × Nat),
      (l.foldl selStep init = init ∨ l.foldl selStep init ∈ l) ∧
      pairLe ((l.foldl selStep init).1, (l.foldl selStep init).2.1) (init.1, init.2.1) ∧
      ∀ x ∈ l, pairLe ((l.foldl selStep init).1, (l.foldl selStep init).2.1) (x.1, x.2.1) := by
  induction l with
  | nil =>
    intro init
    exact ⟨Or.inl rfl, pairLe_refl _, fun x hx => absurd hx (List.not_mem_nil x)⟩
  | cons y l ih =>
    intro init
    rw [List.foldl_cons]
    obtain ⟨hmem, hle, hall⟩ := ih (selStep init y)
    have hsy : selStep init y = y ∨ selStep init y = init := by
      unfold selStep
      split
      · exact Or.inl rfl
      · exact Or.inr rfl
    have hsy_init : pairLe ((selStep init y).1, (selStep init y).2.1) (init.1, init.2.1) := by
      unfold selStep
      split
      · exact keyLt_le (by assumption)
      · exact pairLe_refl _
    have hsy_y : pairLe ((selStep init y).1, (selStep init y).2.1) (y.1, y.2.1) := by
      unfold selStep
      split
      · exact pairLe_refl _
      · exact pairLe_of_not_keyLt (by assumption)
    refine ⟨?_, pairLe_trans hle hsy_init, ?_⟩
    · rcases hmem with h | h
      · rcases hsy with h2 | h2
        · rw [h, h2]
          exact Or.inr (List.mem_cons_self y l)
        · rw [h, h2]
          exact Or.inl rfl
      · exact Or.inr (List.mem_cons_of_mem y h)
    · intro x hx
      rcases List.mem_cons.mp hx with rfl | hx'
      · exact pairLe_trans hle hsy_y
      · exact hall x hx'

theorem enumPairs_of_dictFind {d : List String} {c : String} {i : Nat}
    (h : dictFind d c = some i) : ∀ n, (i + n, c) ∈ enumPairs n d := by
  induction d generalizing i with
  | nil => simp [dictFind] at h
  | cons x xs ih =>
    intro n
    rw [dictFind] at h
    by_cases hc : c = x
    · rw [if_pos hc] at h
      have hi : i = 0 := by
        cases h
        rfl
      subst hi
      subst hc
      rw [enumPairs, Nat.zero_add]
      exact List.mem_cons_self _ _
    · rw [if_neg hc] at h
      obtain ⟨j, hj, hji⟩ := Option.map_eq_some'.mp h
      rw [enumPairs]
      refine List.mem_cons_of_mem _ ?_
      have : i + n = j + (n + 1) := by omega
      rw [this]
      exact ih hj (n + 1)

theorem enumPairs_length (n : Nat) (d : List String) :
    (enumPairs n d).length = d.length := by
  induction d generalizing n with
  | nil => rfl
  | cons x xs ih => simp [enumPairs, ih]

theorem selectCity_spec (r : Result) (hnd : r.city_id.Nodup) (hne : r.city_id ≠ [])
    (hcost : ∀ i, i < r.city_id.length → r.city_cost i < SENTINEL) :
    (selectCity r).2.1 ∈ r.city_id ∧
    (selectCity r).1 = cityTotalOf r (selectCity r).2.1 ∧
    dictFind r.city_id (selectCity r).2.1 = some (selectCity r).2.2 ∧
    ∀ c ∈ r.city_id, pairLe ((selectCity r).1, (selectCity r).2.1) (cityTotalOf r c, c) := by
  obtain ⟨hmem, _hle, hall⟩ := selStep_foldl
    ((enumPairs 0 r.city_id).map (fun q => (r.city_cost q.1, q.2, q.1)))
    (SENTINEL, "", 0)
  have hsel : selectCity r
      = ((enumPairs 0 r.city_id).map (fun q => (r.city_cost q.1, q.2, q.1))).foldl
        selStep (SENTINEL, "", 0) := rfl
  -- the fold cannot stay at the initial sentinel triple
  have hnotinit : selectCity r ≠ (SENTINEL, "", 0) := by
    intro hinit
    rcases hd : r.city_id with _ | ⟨x, xs⟩
    · exact hne hd
    · have h0 : ((0 : Nat), x) ∈ enumPairs 0 r.city_id := by
        rw [hd, enumPairs]
        exact List.mem_cons_self _ _
      have hm : (r.city_cost 0, x, 0)
          ∈ (enumPairs 0 r.city_id).map (fun q => (r.city_cost q.1, q.2, q.1)) :=
        List.mem_map_of_mem _ h0
      have hub := hall _ hm
      rw [← hsel, hinit] at hub
      have hlt : r.city_cost 0 < SENTINEL := by
        refine hcost 0 ?_
        rw [hd]
        simp
      rcases hub with hub | ⟨hub, _⟩
      · exact absurd hub (not_lt.mpr (le_of_lt hlt))
      · exact absurd hub.symm (ne_of_lt hlt)
  have hin : selectCity r
      ∈ (enumPairs 0 r.city_id).map (fun q => (r.city_cost q.1, q.2, q.1)) := by
    rcases hmem with h | h
    · exact absurd (hsel.trans h) hnotinit
    · rw [hsel]
      exact h
  obtain ⟨q, hq, hqe⟩ := List.mem_map.mp hin
  obtain ⟨_, hget⟩ := enumPairs_mem hq
  rw [Nat.sub_zero] at hget
  have hfind : dictFind r.city_id q.2 = some q.1 := dictFind_of_nodup hnd hget
  have h1 : (selectCity r).2.1 = q.2 := by rw [← hqe]
  have h2 : (selectCity r).1 = r.city_cost q.1 := by rw [← hqe]
  have h3 : (selectCity r).2.2 = q.1 := by rw [← hqe]
  refine ⟨?_, ?_, ?_, ?_⟩
  · rw [h1]
    exact List.get?_mem hget
  · rw [h1, h2, cityTotalOf_eq_some hfind]
  · rw [h1, h3]
    exact hfind
  · intro c hc
    obtain ⟨i, hi⟩ := dictFind_mem hc
    have hpair : (i + 0, c) ∈ enumPairs 0 r.city_id := enumPairs_of_dictFind hi 0
    have hm : (r.city_cost (i + 0), c, i + 0)
        ∈ (enumPairs 0 r.city_id).map (fun q => (r.city_cost q.1, q.2, q.1)) :=
      List.mem_map_of_mem _ hpair
    have := hall _ hm
    rw [← hsel] at this
    rw [cityTotalOf_eq_some hi]
    simpa using this

/-! ## Claim theorems: report builder (C5) -/

theorem reportOf_fst (r : Result) :
    (reportOf r).1 = ((selectCity r).2.1, (selectCity r).1) := rfl

theorem reportOf_snd (r : Result) :
    (reportOf r).2 = (((enumPairs 0 r.product_id).map
      (fun q => (r.product_cost (selectCity r).2.2 q.1, q.2))).insertionSort pairLe).take 5
      ++ List.replicate (5 - (((enumPairs 0 r.product_id).map
        (fun q => (r.product_cost (selectCity r).2.2 q.1, q.2))).insertionSort
          pairLe).length) (0, "") := rfl

theorem report_take_sorted (r : Result) :
    List.Sorted pairLe ((reportOf r).2.take (min 5 r.product_id.length)) := by
  rw [reportOf_snd]
  have hlen : (((enumPairs 0 r.product_id).map
      (fun q => (r.product_cost (selectCity r).2.2 q.1, q.2))).insertionSort
        pairLe).length = r.product_id.length := by
    rw [(List.perm_insertionSort pairLe _).length_eq, List.length_map]
    exact enumPairs_length 0 _
  have hmin : min 5 r.product_id.length
      ≤ ((((enumPairs 0 r.product_id).map
        (fun q => (r.product_cost (selectCity r).2.2 q.1, q.2))).insertionSort
          pairLe).take 5).length := by
    rw [List.length_take, hlen]
  rw [List.take_append_of_le_length hmin]
  refine List.Pairwise.sublist ((List.take_sublist _ _).trans (List.take_sublist _ _)) ?_
  exact List.sorted_insertionSort pairLe _

/-- C5 (amended): the report builder selects the city whose `(total, name)`
key is minimal in the lexicographic order — minimum total first, ties broken
by the smaller name — and the head line of the report carries exactly that
name and total; the first `min 5 k` product lines (the real, non-padding
part of the output, `k` the global product count) are ascending by
`(minimum price, product name)`. (The claim as literally stated fails: when
the winning city has fewer than five products, `resize(5)` pads the line
vector, so the full printed list is not ascending — see the
counterexample.) Determinism holds because the embedded builder is a pure
function of the aggregate. -/
theorem report_builder_selection (r : Result) (hnd : r.city_id.Nodup)
    (hne : r.city_id ≠ [])
    (hcost : ∀ i, i < r.city_id.length → r.city_cost i < SENTINEL) :
    ((selectCity r).2.1 ∈ r.city_id ∧
      (selectCity r).1 = cityTotalOf r (selectCity r).2.1 ∧
      ∀ c ∈ r.city_id,
        pairLe ((selectCity r).1, (selectCity r).2.1) (cityTotalOf r c, c)) ∧
    (reportOf r).1 = ((selectCity r).2.1, (selectCity r).1) ∧
    List.Sorted pairLe ((reportOf r).2.take (min 5 r.product_id.length)) := by
  obtain ⟨h1, h2, _h3, h4⟩ := selectCity_spec r hnd hne hcost
  exact ⟨⟨h1, h2, h4⟩, rfl, report_take_sorted r⟩

/-- C5 (counterexample): on the round-trip aggregate the full list of
printed product lines is NOT ascending by `(price, name)`: the sentinel
line for `Y` precedes the `(0, "")` padding lines. -/
theorem report_products_not_ascending_cex :
    ¬ List.Sorted pairLe (reportOf (mergeAll [process_chunk roundTripRecords])).2 := by
  intro h
  have he : (reportOf (mergeAll [process_chunk roundTripRecords])).2
      = [(50, "X"), (SENTINEL, "Y"), (0, ""), (0, ""), (0, "")] := by decide
  rw [he, List.sorted_cons, List.sorted_cons] at h
  obtain ⟨_, h2, _⟩ := h
  have h3 := h2 (0, "") (by simp)
  rcases h3 with hlt | ⟨heq, _⟩
  · exact absurd hlt (by decide)
  · exact absurd heq (by decide)


/-- Witness for the amended C5 at the two-city tie aggregate. -/
theorem report_builder_selection_w :
    (tieResult.city_id.Nodup ∧ tieResult.city_id ≠ [] ∧
      ∀ i, i < tieResult.city_id.length → tieResult.city_cost i < SENTINEL) ∧
    (((selectCity tieResult).2.1 ∈ tieResult.city_id ∧
      (selectCity tieResult).1 = cityTotalOf tieResult (selectCity tieResult).2.1 ∧
      ∀ c ∈ tieResult.city_id,
        pairLe ((selectCity tieResult).1, (selectCity tieResult).2.1)
          (cityTotalOf tieResult c, c)) ∧
    (reportOf tieResult).1 = ((selectCity tieResult).2.1, (selectCity tieResult).1) ∧
    List.Sorted pairLe ((reportOf tieResult).2.take (min 5 tieResult.product_id.length))) :=
  ⟨⟨by decide, by decide, by decide⟩,
    report_builder_selection tieResult (by decide) (by decide) (by decide)⟩

/-! ## Claim theorem: partition independence (C9) -/

theorem foldr_min_perm {l1 l2 : List Int} (h : l1.Perm l2) (e : Int) :
    l1.foldr min e = l2.foldr min e := by
  induction h with
  | nil => rfl
  | cons x _ ih => simp [List.foldr_cons, ih]
  | swap x y l =>
    simp only [List.foldr_cons]
    rw [min_left_comm]
  | trans _ _ ih1 ih2 => rw [ih1, ih2]

theorem citySum_perm {l1 l2 : List Rec} (h : l1.Perm l2) (c : String) :
    citySum l1 c = citySum l2 c := by
  unfold citySum
  exact ((h.filter _).map _).sum_eq

theorem pairMin_perm {l1 l2 : List Rec} (h : l1.Perm l2) (c p : String) :
    pairMin l1 c p = pairMin l2 c p := by
  unfold pairMin
  exact foldr_min_perm ((h.filter _).map _) SENTINEL

theorem citySum_le_abs_sum (l : List Rec) (c : String) :
    citySum l c ≤ (l.map (fun x => |x.price|)).sum := by
  induction l with
  | nil => exact le_refl _
  | cons x xs ih =>
    rw [citySum_cons, List.map_cons, List.sum_cons]
    have h1 : (if x.city = c then x.price else 0) ≤ |x.price| := by
      split
      · exact le_abs_self _
      · exact abs_nonneg _
    exact add_le_add h1 ih

theorem citySum_lt_sentinel {l : List Rec} (c : String)
    (h : (l.map (fun x => |x.price|)).sum < SENTINEL) : citySum l c < SENTINEL :=
  lt_of_le_of_lt (citySum_le_abs_sum l c) h

theorem enumPairs_get? (n : Nat) (d : List String) :
    ∀ j, (enumPairs n d).get? j = (d.get? j).map (fun p => (n + j, p)) := by
  induction d generalizing n with
  | nil => intro j; simp [enumPairs]
  | cons x xs ih =>
    intro j
    match j with
    | 0 => simp [enumPairs]
    | j' + 1 =>
      rw [enumPairs, List.get?_cons_succ, List.get?_cons_succ, ih (n + 1) j']
      cases xs.get? j' with
      | none => rfl
      | some p =>
        simp only [Option.map_some', Option.some_inj, Prod.mk.injEq, and_true]
        omega

theorem prods_by_name (r : Result) (i : Nat) (hd : r.product_id.Nodup) :
    (enumPairs 0 r.product_id).map (fun q => (r.product_cost i q.1, q.2))
      = r.product_id.map (fun p => (pcell r i p, p)) := by
  apply List.ext_get?
  intro j
  rw [List.get?_map, List.get?_map, enumPairs_get?]
  cases hj : r.product_id.get? j with
  | none => rfl
  | some p =>
    simp only [Option.map_some']
    have hfind : dictFind r.product_id p = some j := dictFind_of_nodup hd hj
    rw [pcell_eq_some _ hfind, Nat.zero_add]

theorem reportOf_ext {r1 r2 : Result}
    (h1c : r1.city_id.Nodup) (h2c : r2.city_id.Nodup)
    (h1p : r1.product_id.Nodup) (h2p : r2.product_id.Nodup)
    (hcperm : r1.city_id.Perm r2.city_id)
    (hpperm : r1.product_id.Perm r2.product_id)
    (hct : ∀ c, cityTotalOf r1 c = cityTotalOf r2 c)
    (hpm : ∀ c p, pairMinOf r1 c p = pairMinOf r2 c p)
    (hne : r1.city_id ≠ [])
    (hcost1 : ∀ i, i < r1.city_id.length → r1.city_cost i < SENTINEL)
    (hcost2 : ∀ i, i < r2.city_id.length → r2.city_cost i < SENTINEL) :
    reportOf r1 = reportOf r2 := by
  have hne2 : r2.city_id ≠ [] := by
    intro h
    exact hne (h ▸ hcperm).eq_nil
  obtain ⟨m1, c1eq, f1, min1⟩ := selectCity_spec r1 h1c hne hcost1
  obtain ⟨m2, c2eq, f2, min2⟩ := selectCity_spec r2 h2c hne2 hcost2
  have hkey : ((selectCity r1).1, (selectCity r1).2.1)
      = ((selectCity r2).1, (selectCity r2).2.1) := by
    apply pairLe_antisymm
    · have hmem1 : (selectCity r2).2.1 ∈ r1.city_id := hcperm.mem_iff.mpr m2
      have h := min1 _ hmem1
      rw [hct, ← c2eq] at h
      exact h
    · have hmem2 : (selectCity r1).2.1 ∈ r2.city_id := hcperm.mem_iff.mp m1
      have h := min2 _ hmem2
      rw [← hct, ← c1eq] at h
      exact h
  have hpair := Prod.ext_iff.mp hkey
  have hcostEq : (selectCity r1).1 = (selectCity r2).1 := hpair.1
  have hname : (selectCity r1).2.1 = (selectCity r2).2.1 := hpair.2
  have hF : ∀ p, (pcell r1 (selectCity r1).2.2 p : Int)
      = pcell r2 (selectCity r2).2.2 p := by
    intro p
    rw [← pairMinOf_eq_some p f1, ← pairMinOf_eq_some p f2, hname, hpm]
  have hmapeq : (r1.product_id.map (fun p => (pcell r1 (selectCity r1).2.2 p, p))).Perm
      (r2.product_id.map (fun p => (pcell r2 (selectCity r2).2.2 p, p))) := by
    have h1 : r1.product_id.map (fun p => (pcell r1 (selectCity r1).2.2 p, p))
        = r1.product_id.map (fun p => (pcell r2 (selectCity r2).2.2 p, p)) := by
      have hfun : (fun p => ((pcell r1 (selectCity r1).2.2 p : Int), p))
          = (fun p => (pcell r2 (selectCity r2).2.2 p, p)) :=
        funext (fun p => by rw [hF p])
      rw [hfun]
    rw [h1]
    exact hpperm.map _
  have hsorted : ((enumPairs 0 r1.product_id).map
      (fun q => (r1.product_cost (selectCity r1).2.2 q.1, q.2))).insertionSort pairLe
      = ((enumPairs 0 r2.product_id).map
        (fun q => (r2.product_cost (selectCity r2).2.2 q.1, q.2))).insertionSort pairLe := by
    have hs1 := List.sorted_insertionSort pairLe ((enumPairs 0 r1.product_id).map
      (fun q => (r1.product_cost (selectCity r1).2.2 q.1, q.2)))
    have hs2 := List.sorted_insertionSort pairLe ((enumPairs 0 r2.product_id).map
      (fun q => (r2.product_cost (selectCity r2).2.2 q.1, q.2)))
    have hpp : (((enumPairs 0 r1.product_id).map
        (fun q => (r1.product_cost (selectCity r1).2.2 q.1, q.2))).insertionSort
          pairLe).Perm
        (((enumPairs 0 r2.product_id).map
          (fun q => (r2.product_cost (selectCity r2).2.2 q.1, q.2))).insertionSort
            pairLe) := by
      refine ((List.perm_insertionSort pairLe _).trans ?_).trans
        (List.perm_insertionSort pairLe _).symm
      rw [prods_by_name r1 _ h1p, prods_by_name r2 _ h2p]
      exact hmapeq
    exact List.eq_of_perm_of_sorted hpp hs1 hs2
  have hfst : (reportOf r1).1 = (reportOf r2).1 := by
    rw [reportOf_fst, reportOf_fst, hname, hcostEq]
  have hsnd : (reportOf r1).2 = (reportOf r2).2 := by
    rw [reportOf_snd, reportOf_snd, hsorted]
  exact Prod.ext_iff.mpr ⟨hfst, hsnd⟩

theorem reportOf_empty_dicts {r : Result} (hc : r.city_id = [])
    (hp : r.product_id = []) :
    reportOf r = (("", SENTINEL), List.replicate 5 (0, "")) := by
  have hsel : selectCity r = (SENTINEL, "", 0) := by
    unfold selectCity
    rw [hc]
    rfl
  have h1 : (reportOf r).1 = ("", SENTINEL) := by
    rw [reportOf_fst, hsel]
  have h2 : (reportOf r).2 = List.replicate 5 (0, "") := by
    rw [reportOf_snd, hp]
    rfl
  exact Prod.ext_iff.mpr ⟨h1, h2⟩

/-- C9: for any two splits of the same record stream into chunks (any
number, arrangement and order of chunks — the two chunkings' record
streams are permutations of each other), the merged global aggregates
produce the identical final report: the winning city line and the five
product lines coincide, because per-city sums and per-(city,product)
minimums are commutative/associative aggregates. (The price-magnitude bound
keeps every city total below the sentinel that initialises the selection
loop.) -/
theorem merge_partition_independent (P Q : List (List Rec))
    (hperm : P.flatten.Perm Q.flatten)
    (hb : (P.flatten.map (fun x => |x.price|)).sum < SENTINEL) :
    reportOf (mergeAll (P.map process_chunk))
      = reportOf (mergeAll (Q.map process_chunk)) := by
  have hm1 := models_mergeAll P
  have hm2 := models_mergeAll Q
  have hbQ : (Q.flatten.map (fun x => |x.price|)).sum < SENTINEL := by
    rw [← (hperm.map _).sum_eq]
    exact hb
  have hct : ∀ c, cityTotalOf (mergeAll (P.map process_chunk)) c
      = cityTotalOf (mergeAll (Q.map process_chunk)) c := by
    intro c
    rw [hm1.csum, hm2.csum, citySum_perm hperm]
  have hpm : ∀ c p, pairMinOf (mergeAll (P.map process_chunk)) c p
      = pairMinOf (mergeAll (Q.map process_chunk)) c p := by
    intro c p
    rw [hm1.pmin, hm2.pmin, pairMin_perm hperm]
  have hcperm : (mergeAll (P.map process_chunk)).city_id.Perm
      (mergeAll (Q.map process_chunk)).city_id := by
    rw [List.perm_ext_iff_of_nodup hm1.cnd hm2.cnd]
    intro a
    constructor
    · intro ha
      obtain ⟨x, hx, he⟩ := hm1.csub a ha
      exact he ▸ hm2.cmem x (hperm.mem_iff.mp hx)
    · intro ha
      obtain ⟨x, hx, he⟩ := hm2.csub a ha
      exact he ▸ hm1.cmem x (hperm.mem_iff.mpr hx)
  have hpperm : (mergeAll (P.map process_chunk)).product_id.Perm
      (mergeAll (Q.map process_chunk)).product_id := by
    rw [List.perm_ext_iff_of_nodup hm1.pnd hm2.pnd]
    intro a
    constructor
    · intro ha
      obtain ⟨x, hx, he⟩ := hm1.psub a ha
      exact he ▸ hm2.pmem x (hperm.mem_iff.mp hx)
    · intro ha
      obtain ⟨x, hx, he⟩ := hm2.psub a ha
      exact he ▸ hm1.pmem x (hperm.mem_iff.mpr hx)
  by_cases hne : (mergeAll (P.map process_chunk)).city_id = []
  · have hne2 : (mergeAll (Q.map process_chunk)).city_id = [] :=
      (hne ▸ hcperm.symm).eq_nil
    have hPnil : ∀ x, x ∉ P.flatten := by
      intro x hx
      have := hm1.cmem x hx
      rw [hne] at this
      cases this
    have hQnil : ∀ x, x ∉ Q.flatten := by
      intro x hx
      have := hm2.cmem x hx
      rw [hne2] at this
      cases this
    have hp1 : (mergeAll (P.map process_chunk)).product_id = [] := by
      rw [List.eq_nil_iff_forall_not_mem]
      intro p hp
      obtain ⟨x, hx, _⟩ := hm1.psub p hp
      exact hPnil x hx
    have hp2 : (mergeAll (Q.map process_chunk)).product_id = [] := by
      rw [List.eq_nil_iff_forall_not_mem]
      intro p hp
      obtain ⟨x, hx, _⟩ := hm2.psub p hp
      exact hQnil x hx
    rw [reportOf_empty_dicts hne hp1, reportOf_empty_dicts hne2 hp2]
  · have hne2 : (mergeAll (Q.map process_chunk)).city_id ≠ [] := by
      intro h
      exact hne (h ▸ hcperm).eq_nil
    refine reportOf_ext hm1.cnd hm2.cnd hm1.pnd hm2.pnd hcperm hpperm hct hpm hne ?_ ?_
    · intro i hi
      have hget : (mergeAll (P.map process_chunk)).city_id.get? i
          = some ((mergeAll (P.map process_chunk)).city_id.get ⟨i, hi⟩) :=
        List.get?_eq_get hi
      have hfind := dictFind_of_nodup hm1.cnd hget
      have he : (mergeAll (P.map process_chunk)).city_cost i
          = citySum P.flatten ((mergeAll (P.map process_chunk)).city_id.get ⟨i, hi⟩) := by
        rw [← cityTotalOf_eq_some hfind, hm1.csum]
      rw [he]
      exact citySum_lt_sentinel _ hb
    · intro i hi
      have hget : (mergeAll (Q.map process_chunk)).city_id.get? i
          = some ((mergeAll (Q.map process_chunk)).city_id.get ⟨i, hi⟩) :=
        List.get?_eq_get hi
      have hfind := dictFind_of_nodup hm2.cnd hget
      have he : (mergeAll (Q.map process_chunk)).city_cost i
          = citySum Q.flatten ((mergeAll (Q.map process_chunk)).city_id.get ⟨i, hi⟩) := by
        rw [← cityTotalOf_eq_some hfind, hm2.csum]
      rw [he]
      exact citySum_lt_sentinel _ hbQ



/-- Witness for C9 at a concrete pair of chunkings. -/
theorem merge_partition_independent_w :
    (permP.flatten.Perm permQ.flatten ∧
      (permP.flatten.map (fun x => |x.price|)).sum < SENTINEL) ∧
    reportOf (mergeAll (permP.map process_chunk))
      = reportOf (mergeAll (permQ.map process_chunk)) :=
  ⟨⟨by decide, by decide⟩,
    merge_partition_independent permP permQ (by decide) (by decide)⟩
